import Mathlib

/-!
Verification of the bishop pattern-matched RPC framework core.

This development shallowly embeds the JavaScript sources of the repository:

* `src/src/utils.js` — pattern parser (`text2obj`), splitter (`split`),
  serializer (`beautify`), `objectify`, `createPayloadWrapper`;
* `src/unnamed/part_000` — the older utils variant;
* `src/unnamed/part_001` — the older `Bishop` factory (`act`, `add`,
  lifecycle entry points; its `disconnect` invokes the `connect` hook);
* `src/unnamed/part_002` — the newer `Bishop` factory (`act` with
  `$debug`/`$slow`, `forbidSameRouteNames` duplicate probe, lifecycle).

JavaScript objects are modelled as association lists in insertion order
(`Obj`), JavaScript values by the inductive `JSValue` (strings, regexes,
numbers, booleans, and a flat object carrying only its key list, which is
all `beautify` inspects).  Machine-level aspects that no claim depends on
(Unicode whitespace classes beyond ASCII, `NaN`, prototype chains) are
out of model.  The pattern-index dependency `bloomrun` and the helper
`runMethodsParallel` are not under `src/`; they are modelled from the
specification (sections 4.1 and 4.5) and marked as such.
-/

/-- A JavaScript value as it appears in bishop patterns: a string, a regular
expression (carrying its source text), a number, a boolean, or a plain object
(modelled by its key list only, which is all `beautify` ever reads from a
nested value; no claim depends on nested object contents). -/
inductive JSValue where
  | str (s : String)
  | regex (src : String)
  | num (n : Int)
  | bool (b : Bool)
  | obj (keys : List String)
deriving DecidableEq, Repr

/-- A JavaScript object: association list of fields in insertion order. -/
abbrev Obj := List (String × JSValue)

/-- JavaScript truthiness of a `JSValue` (empty string, zero and `false` are
falsy; regexes and objects are truthy). -/
def jsTruthy : JSValue → Bool
  | .str s => !(s == "")
  | .num n => !(n == 0)
  | .bool b => b
  | .regex _ => true
  | .obj _ => true

/-- Truthiness of a possibly-absent value (`undefined` is falsy). -/
def jsTruthyOpt : Option JSValue → Bool
  | none => false
  | some v => jsTruthy v

/-- Property read `o[k]`: the first binding of key `k`. -/
def getKey (o : Obj) (k : String) : Option JSValue :=
  (o.find? (fun kv => kv.1 == k)).map (fun kv => kv.2)

/-- Property write `o[k] = v`: overwrite the binding in place when the key is
present, append it otherwise (JavaScript objects keep the original key
position on re-assignment). -/
def setKey (o : Obj) (k : String) (v : JSValue) : Obj :=
  if o.any (fun kv => kv.1 == k) then
    o.map (fun kv => if kv.1 == k then (k, v) else kv)
  else
    o ++ [(k, v)]

/-- ASCII whitespace, the fragment of the JavaScript `trim` class that the
repository exercises. -/
def isWs (c : Char) : Bool := c == ' ' || c == '\t' || c == '\n' || c == '\r'

/-- Left trim on character lists. -/
def trimL (l : List Char) : List Char := l.dropWhile isWs

/-- Right trim on character lists. -/
def trimR (l : List Char) : List Char := (l.reverse.dropWhile isWs).reverse

/-- Full trim on character lists, as JavaScript `String.prototype.trim`. -/
def trimChars (l : List Char) : List Char := trimR (trimL l)

/-- JavaScript `s.trim()`. -/
def jsTrim (s : String) : String := ⟨trimChars s.data⟩

/-- Worker for `splitOnChar`; `acc` holds the current segment reversed. -/
def splitOnCharAux (sep : Char) : List Char → List Char → List (List Char)
  | [], acc => [acc.reverse]
  | c :: rest, acc =>
      if c == sep then acc.reverse :: splitOnCharAux sep rest []
      else splitOnCharAux sep rest (c :: acc)

/-- Split a character list at every occurrence of `sep`; never returns `[]`,
and the empty list splits to `[[]]`, matching JavaScript `split`. -/
def splitOnChar (sep : Char) (l : List Char) : List (List Char) :=
  splitOnCharAux sep l []

/-- JavaScript `s.split(sep)` for a one-character separator. -/
def jsSplit (sep : Char) (s : String) : List String :=
  (splitOnChar sep s.data).map (fun l => ⟨l⟩)

/-- JavaScript `s[0] === c`: first-character test (false on the empty
string, where `s[0]` is `undefined`). -/
def headIs (c : Char) (s : String) : Bool :=
  match s.data with
  | c2 :: _ => c2 == c
  | [] => false

/-- JavaScript `s[s.length - 1] === c`: last-character test. -/
def lastIs (c : Char) (s : String) : Bool :=
  match s.data.getLast? with
  | some c2 => c2 == c
  | none => false

/-- JavaScript `s.slice(1, -1)`: drop the first and the last character. -/
def slice1m1 (s : String) : String := ⟨(s.data.drop 1).dropLast⟩

/-- The meta-key test `field[0] === '$'` used by `split`. -/
def isMetaKey (k : String) : Bool :=
  match k.data with
  | c :: _ => c == '$'
  | [] => false

/-- JavaScript `field.substring(1)`: strip the meta sigil. -/
def dropSigil (k : String) : String := ⟨k.data.tail⟩

/-- One reduction step of `text2obj` from `src/src/utils.js` (the fold body
over comma segments): `let [key, value] = cur.trim().split(":")`, a missing
value defaults to `regExpAll.toString()` which is the text `/.*/`, and the
value becomes a regex with `slice(1, -1)` applied exactly when its first
character is a slash. -/
def parseSegment (prev : Obj) (cur : String) : Obj :=
  let parts := jsSplit ':' (jsTrim cur)
  let key := parts.headD ""
  let value := (parts.get? 1).getD "/.*/"
  let tv := jsTrim value
  let v := if headIs '/' tv then JSValue.regex (slice1m1 tv) else JSValue.str tv
  setKey prev (jsTrim key) v

/-- Function `text2obj` from `src/src/utils.js` lines 68 to 81: parse a comma-separated
string of `key[:value]` segments into an object. -/
def text2obj (input : String) : Obj :=
  (jsSplit ',' input).foldl parseSegment []

/-- The argument of `objectify`, `split` and `act`: either a pattern string or
an already-built object (`lodash.cloneDeep` of a flat object is the identity
in this value model; aliasing is treated separately in the heap model below). -/
inductive PatInput where
  | str (s : String)
  | object (o : Obj)
deriving DecidableEq, Repr

/-- Function `objectify` from `src/src/utils.js` lines 90 to 92. -/
def objectify : PatInput → Obj
  | .str s => text2obj s
  | .object o => o

/-- JavaScript truthiness of the raw `act` / `split` argument (`undefined`,
`null` and the empty string are the falsy pattern arguments). -/
def patInputTruthy : Option PatInput → Bool
  | none => false
  | some (.str s) => !(s == "")
  | some (.object _) => true

/-- Function `split` from `src/src/utils.js` lines 95 to 111: merge partial patterns
left to right into the `(message, meta, raw)` triple; keys beginning with the
sigil go to `meta` with the sigil stripped, the rest to `message`, and every
key to `raw`. -/
def split (parts : List PatInput) : Obj × Obj × Obj :=
  parts.foldl (fun acc item =>
    (objectify item).foldl (fun acc kv =>
      let message := if isMetaKey kv.1 then acc.1 else setKey acc.1 kv.1 kv.2
      let meta := if isMetaKey kv.1 then setKey acc.2.1 (dropSigil kv.1) kv.2 else acc.2.1
      let raw := setKey acc.2.2 kv.1 kv.2
      (message, meta, raw)) acc) ([], [], [])

/-- JavaScript `Array.prototype.join(sep)`. -/
def joinSep (sep : String) : List String → String
  | [] => ""
  | [x] => x
  | x :: xs => x ++ sep ++ joinSep sep xs

/-- JavaScript `value.toString()` for the values `beautify` meets: strings
render as themselves and a regex as its source between slashes (sources
containing slashes or empty, which JavaScript re-escapes to forms such as
`/(?:)/`, are excluded by hypothesis wherever this matters). -/
def vToString : JSValue → String
  | .str s => s
  | .regex src => "/" ++ src ++ "/"
  | .num n => toString n
  | .bool b => if b then "true" else "false"
  | .obj _ => "[object Object]"

/-- One mapped element of `beautify` from `src/src/utils.js` lines 113 to 121:
nested plain objects render as the key list between braces, a truthy value as
`key:value`, a falsy value as the bare key. -/
def beautifySeg (kv : String × JSValue) : String :=
  match kv.2 with
  | .obj keys => kv.1 ++ ":\x7b" ++ joinSep "," keys ++ "\x7d"
  | v => if jsTruthy v then kv.1 ++ ":" ++ vToString v else kv.1

/-- Function `beautify` from `src/src/utils.js`: render a pattern for diagnostics. -/
def beautify (o : Obj) : String :=
  joinSep ", " (o.map beautifySeg)

/-- JavaScript `Array.prototype.join` on character lists (used to relate `joinSep` to the
split lemmas). -/
def joinCL (sep : List Char) : List (List Char) → List Char
  | [] => []
  | [x] => x
  | x :: xs => x ++ sep ++ joinCL sep xs

/-- Shape of a JavaScript comma-split applied to segments that were joined by
a comma and a space: every segment after the first keeps its leading space. -/
def padTail : List (List Char) → List (List Char)
  | [] => []
  | x :: xs => x :: xs.map (fun s => ' ' :: s)

/-- Render a `key[:value]` item back to its segment text. -/
def renderSeg : String × Option String → String
  | (k, none) => k
  | (k, some v) => k ++ ":" ++ v

/-- The per-segment value interpretation stated by the (amended) claim about
the parser: a missing value is the wildcard regex source `.*`; a present
value is trimmed, and becomes a regex with its first and last characters
stripped exactly when its first character is a slash, a plain string
otherwise. -/
def segValueSpec : Option String → JSValue
  | none => JSValue.regex ".*"
  | some v =>
      if headIs '/' (jsTrim v) then JSValue.regex (slice1m1 (jsTrim v))
      else JSValue.str (jsTrim v)

/-- Well-formedness of a `key[:value]` item: neither part contains the grammar
separators. -/
def segWf : String × Option String → Prop
  | (k, none) => (',' : Char) ∉ k.data ∧ (':' : Char) ∉ k.data
  | (k, some v) =>
      ((',' : Char) ∉ k.data ∧ (':' : Char) ∉ k.data) ∧
        ((',' : Char) ∉ v.data ∧ (':' : Char) ∉ v.data)

instance (it : String × Option String) : Decidable (segWf it) :=
  match it with
  | (_, none) => inferInstanceAs (Decidable (_ ∧ _))
  | (_, some _) => inferInstanceAs (Decidable (_ ∧ _))

/-- Key constraints under which `beautify` output round-trips through the
parser: the key is already trimmed and contains no separator. -/
def keyWf (k : String) : Prop :=
  jsTrim k = k ∧ (',' : Char) ∉ k.data ∧ (':' : Char) ∉ k.data

instance (k : String) : Decidable (keyWf k) :=
  inferInstanceAs (Decidable (_ ∧ _))

/-- Value constraints under which `beautify` output round-trips: a non-empty
trimmed string with no separator that does not begin with a slash, or a
non-empty regex source free of separators, slashes and backslashes (JavaScript
re-escapes those in `RegExp.prototype.toString`, which the string model of
`vToString` does not reproduce). -/
def valWf : JSValue → Prop
  | .str s => s ≠ "" ∧ jsTrim s = s ∧ (',' : Char) ∉ s.data ∧
      (':' : Char) ∉ s.data ∧ headIs '/' s = false
  | .regex src => src ≠ "" ∧ (',' : Char) ∉ src.data ∧ (':' : Char) ∉ src.data ∧
      ('/' : Char) ∉ src.data ∧ ('\\' : Char) ∉ src.data
  | _ => False

instance (v : JSValue) : Decidable (valWf v) :=
  match v with
  | .str _ => inferInstanceAs (Decidable (_ ∧ _))
  | .regex _ => inferInstanceAs (Decidable (_ ∧ _))
  | .num _ => inferInstanceAs (Decidable False)
  | .bool _ => inferInstanceAs (Decidable False)
  | .obj _ => inferInstanceAs (Decidable False)

/-- Sequential property assignment, the effect of a JavaScript loop writing
each pair into an object. -/
def mergePairs (o : Obj) (pairs : List (String × JSValue)) : Obj :=
  pairs.foldl (fun acc kv => setKey acc kv.1 kv.2) o

/-- The value the last assignment of key `k` wrote, if any: JavaScript
overwrite semantics for a sequence of assignments. -/
def lastVal (pairs : List (String × JSValue)) (k : String) : Option JSValue :=
  (pairs.reverse.find? (fun kv => kv.1 == k)).map (fun kv => kv.2)

/-- All fields contributed by a sequence of partial patterns, in assignment
order (`objectify` applied to each part, then concatenated). -/
def allPairs (parts : List PatInput) : List (String × JSValue) :=
  (parts.map objectify).flatten

instance instDecEqExcept {ε α : Type} [DecidableEq ε] [DecidableEq α] :
    DecidableEq (Except ε α) := fun a b => by
  cases a with
  | error e1 =>
      cases b with
      | error e2 =>
          exact match decEq e1 e2 with
            | isTrue h => isTrue (by rw [h])
            | isFalse h => isFalse (by intro hc; injection hc; contradiction)
      | ok v2 => exact isFalse (fun hc => Except.noConfusion hc)
  | ok v1 =>
      cases b with
      | error e2 => exact isFalse (fun hc => Except.noConfusion hc)
      | ok v2 =>
          exact match decEq v1 v2 with
            | isTrue h => isTrue (by rw [h])
            | isFalse h => isFalse (by intro hc; injection hc; contradiction)

/-- Abstract behavior of a handler or of a transport send method: how many
milliseconds its promise takes to settle and whether it fulfils with a value
(possibly `undefined`, hence the `Option`) or rejects with an error carrying
a name. -/
structure HandlerBeh where
  dur : Nat
  res : Except String (Option JSValue)
deriving DecidableEq, Repr

/-- The handler argument of `add`: a function (`lodash.isFunction`) or a
transport name. -/
inductive HandlerArg where
  | fn (beh : HandlerBeh)
  | name (s : String)
deriving DecidableEq, Repr

/-- The registration payload built by `add`: `type` is the string `local` for
a function handler (constructor `loc`, since `local` is reserved in Lean) and
the transport name otherwise. -/
inductive Payload where
  | loc (beh : HandlerBeh)
  | remote (transportName : String)
deriving DecidableEq, Repr

def mkPayload : HandlerArg → Payload
  | .fn b => .loc b
  | .name s => .remote s

inductive MatchOrder where
  | insertion
  | depth
deriving DecidableEq, Repr

/-- A pattern index: entries in insertion order. -/
abbrev Index := List (Obj × Payload)

/-- Modelled from the spec: the pattern index `bloomrun` is a dependency not
under `src/`; section 4.1 defines its match relation — entry pattern `E`
matches query `Q` iff every non-meta key of `E` exists in `Q` with an equal
value, meta keys of `E` being ignored, keys absent from `E` imposing no
constraint. -/
def matchesQ (e q : Obj) : Bool :=
  e.all (fun kv => isMetaKey kv.1 || getKey q kv.1 == some kv.2)

/-- The depth of a pattern per section 4.1: its number of non-meta keys. -/
def depthOf (p : Obj) : Nat :=
  (p.filter (fun kv => !(isMetaKey kv.1))).length

/-- Modelled from the spec: under `depth` order, return the match with the
greatest number of non-meta keys, ties broken by earlier insertion (the fold
replaces the current best only on strictly greater depth). -/
def pickDepth (cands : List (Obj × Payload)) : Option (Obj × Payload) :=
  cands.foldl (fun best e =>
    match best with
    | none => some e
    | some b => if depthOf b.1 < depthOf e.1 then some e else some b) none

/-- Modelled from the spec: `lookup` of section 4.1 under the configured
match order; `insertion` returns the earliest-inserted match, and `null`
becomes `none` when nothing matches. -/
def lookupIdx (ord : MatchOrder) (idx : Index) (q : Obj) : Option (Obj × Payload) :=
  let cands := idx.filter (fun e => matchesQ e.1 q)
  match ord with
  | .insertion => cands.head?
  | .depth => pickDepth cands

/-- Predicate `lodash.isEqual` restricted to flat objects: equal key sets with equal
values, key order irrelevant. -/
def pequal (p q : Obj) : Bool :=
  p.all (fun kv => getKey q kv.1 == some kv.2) &&
    q.all (fun kv => getKey p kv.1 == some kv.2)

structure AddCfg where
  forbidSameRouteNames : Bool
  matchOrder : MatchOrder
deriving DecidableEq, Repr

inductive AddErr where
  | duplicatePattern
deriving DecidableEq, Repr

/-- Method `add` from `src/unnamed/part_002` lines 58 to 75: classify the handler,
probe the `all` index for the best match of the new pattern when
`forbidSameRouteNames` is set and fail with the duplicate-pattern error when
the probe result `isEqual`s the pattern (a `null` probe result never does);
otherwise append to `pm` and, for local handlers, to `pmLocal`. -/
def bishopAdd (cfg : AddCfg) (pm pmLocal : Index) (pat : Obj)
    (handler : HandlerArg) : Except AddErr (Index × Index) :=
  let type := match handler with | .fn _ => "local" | .name s => s
  let payload := mkPayload handler
  let dup : Bool :=
    if cfg.forbidSameRouteNames then
      match lookupIdx cfg.matchOrder pm pat with
      | some found => pequal found.1 pat
      | none => false
    else false
  if dup then .error .duplicatePattern
  else .ok (pm ++ [(pat, payload)],
    if type == "local" then pmLocal ++ [(pat, payload)] else pmLocal)

/-- A transport record as `act` sees it: an optional `send` method abstracted
to its behavior. -/
structure TransportRec where
  send : Option HandlerBeh
deriving DecidableEq, Repr

/-- Classification of a handler error name, the `errorHandler` closure of
`src/unnamed/part_002` lines 32 to 40: `none` models the `process.exit(1)`
taken for names in the `terminateOn` list form, `some b` models the boolean
returned otherwise or by a custom classifier (`true` mutes the error,
`false` lets it be raised or logged). -/
abbrev ErrorClassifier := String → Option Bool

/-- The per-instance state `act` consults. -/
structure Instance where
  timeout : Int
  debug : Bool
  matchOrder : MatchOrder
  errorHandler : ErrorClassifier
  pm : Index
  pmLocal : Index
  transports : List (String × TransportRec)

inductive ActErr where
  | patternNotSpecified
  | patternNotFound
  | noSuchTransport (transportType : String)
  | patternTimeout
  | handlerFailure (errName : String)
deriving DecidableEq, Repr

/-- Caller-visible settlement of one `act` call; `exit` models the
`process.exit(1)` reached through the default classifier on the awaited
path. -/
inductive ExecOutcome where
  | exit
  | err (e : ActErr)
  | ok (v : Option JSValue)
deriving DecidableEq, Repr

/-- Observable outcome of `act`: the settlement the caller sees and the
errors handled off the caller path (fire-and-forget rejections, paired with
their classification: `some false` means the error is logged). -/
structure ActOutcome where
  res : ExecOutcome
  bg : List (String × Option Bool)
deriving DecidableEq, Repr

/-- Numeric reading of a meta value; non-numeric truthy timeout values are
outside the model and read as zero. -/
def jsNumVal : JSValue → Int
  | .num n => n
  | _ => 0

/-- The computation `const timeout = pattern.$timeout || this.timeout` with JavaScript
truthiness. -/
def effTimeout (pat : Obj) (instTimeout : Int) : Int :=
  match getKey pat "$timeout" with
  | some v => if jsTruthy v then jsNumVal v else instTimeout
  | none => instTimeout

/-- The computation `ld.assign(..., objectify(_pattern), ...payloads)`: the
clone of the input followed by shallow copies of every override, later keys
overwriting earlier ones, in a freshly created object. -/
def mergedPattern (pin : PatInput) (payloads : List Obj) : Obj :=
  payloads.foldl (fun acc p => p.foldl (fun acc kv => setKey acc kv.1 kv.2) acc)
    (objectify pin)

/-- The awaited executor of `act` (the branch without `$nowait`): the handler
settlement with a rejection run through the error classifier — process exit
on a fatal classification, resolution with `null` when muted, re-raised as a
handler failure otherwise. -/
def awaitOutcome (cls : ErrorClassifier) (beh : HandlerBeh) : ExecOutcome :=
  match beh.res with
  | .ok v => .ok v
  | .error en =>
      match cls en with
      | none => .exit
      | some true => .ok none
      | some false => .err (.handlerFailure en)

/-- Step 5 of `act`: resolve the matched payload to a method — a local
handler directly, a remote payload through `this.transport[type].send`,
failing when the transport or its send method is missing.  Returns the
`isLocalPattern` flag together with the behavior of the method. -/
def resolveMethod (transports : List (String × TransportRec)) :
    Payload → Except ActErr (Bool × HandlerBeh)
  | .loc beh => .ok (true, beh)
  | .remote tname =>
      match (transports.find? (fun t => t.1 == tname)).map (fun t => t.2) with
      | some rec2 =>
          match rec2.send with
          | some beh => .ok (false, beh)
          | none => .error (.noSuchTransport tname)
      | none => .error (.noSuchTransport tname)

/-- Method `act` from `src/unnamed/part_002` lines 87 to 173 (the logic is shared
with `src/unnamed/part_001` lines 84 to 134), as a function of the instance
state and of the abstract behavior of the resolved handler.  Logging, the
`$slow` warning and the contents of the `$debug` trace are effects outside
the value model; the debug trace attached to a `$nowait` response is
abstracted to an empty object.  The race
`Promise.resolve(executor(pattern)).timeout(timeout)` is modelled by its
settlement: the timer fires exactly when the executor promise is still
pending after `max(timeout, 0)` milliseconds — `setTimeout` clamps a negative
delay to zero, and an already-settled promise (the `$nowait` response) never
times out.  The instance state is read-only throughout: no branch of `act`
touches the indices or the transport registry. -/
def act (inst : Instance) (pin : Option PatInput) (payloads : List Obj) : ActOutcome :=
  if !(patInputTruthy pin) then ⟨.err .patternNotSpecified, []⟩
  else
    match pin with
    | none => ⟨.err .patternNotSpecified, []⟩
    | some pin0 =>
        let pattern := mergedPattern pin0 payloads
        let timeout := effTimeout pattern inst.timeout
        let isDebugEnabled := jsTruthyOpt (getKey pattern "$debug") || inst.debug
        let idx := if jsTruthyOpt (getKey pattern "$local") then inst.pmLocal else inst.pm
        match lookupIdx inst.matchOrder idx pattern with
        | none => ⟨.err .patternNotFound, []⟩
        | some matchResult =>
            match resolveMethod inst.transports matchResult.2 with
            | .error e => ⟨.err e, []⟩
            | .ok (isLocalPattern, beh) =>
                if isLocalPattern && jsTruthyOpt (getKey pattern "$nowait") then
                  let bg :=
                    match beh.res with
                    | .ok _ => []
                    | .error en => [(en, inst.errorHandler en)]
                  ⟨.ok (if isDebugEnabled then some (JSValue.obj []) else none), bg⟩
                else
                  let envelope := awaitOutcome inst.errorHandler beh
                  if timeout == 0 then ⟨envelope, []⟩
                  else if (beh.dur : Int) > max timeout 0 then
                    ⟨.err .patternTimeout, []⟩
                  else ⟨envelope, []⟩

/-- A transport record as the lifecycle driver sees it: the lifecycle methods
it declares. -/
structure LifecycleRec where
  hooks : List String
deriving DecidableEq, Repr

/-- Modelled from the spec: `runMethodsParallel`, required from `./utils` by
both Bishop variants, is not under `src/`; section 4.5 specifies it as
invoking `record[method]` on every transport that has it, in parallel.  The
model returns the list of `(transport, method)` invocations performed. -/
def runMethodsParallel (transports : List (String × LifecycleRec))
    (method : String) : List (String × String) :=
  (transports.filter (fun t => t.2.hooks.contains method)).map (fun t => (t.1, method))

/-- Method `connect` from `src/unnamed/part_001` lines 163 to 166. -/
def connectV1 (transports : List (String × LifecycleRec)) : List (String × String) :=
  runMethodsParallel transports "connect"

/-- Method `disconnect` from `src/unnamed/part_001` lines 168 to 171: despite its
name and its comment, it calls `runMethodsParallel` with the method name
`connect`. -/
def disconnectV1 (transports : List (String × LifecycleRec)) : List (String × String) :=
  runMethodsParallel transports "connect"

/-- Method `listen` from `src/unnamed/part_001` lines 173 to 176. -/
def listenV1 (transports : List (String × LifecycleRec)) : List (String × String) :=
  runMethodsParallel transports "listen"

/-- Method `close` from `src/unnamed/part_001` lines 178 to 181. -/
def closeV1 (transports : List (String × LifecycleRec)) : List (String × String) :=
  runMethodsParallel transports "close"

/-- Method `connect` from `src/unnamed/part_002` lines 201 to 204. -/
def connectV2 (transports : List (String × LifecycleRec)) : List (String × String) :=
  runMethodsParallel transports "connect"

/-- Method `disconnect` from `src/unnamed/part_002` lines 206 to 209, which does
call the `disconnect` hook. -/
def disconnectV2 (transports : List (String × LifecycleRec)) : List (String × String) :=
  runMethodsParallel transports "disconnect"

/-- Method `listen` from `src/unnamed/part_002` lines 211 to 214. -/
def listenV2 (transports : List (String × LifecycleRec)) : List (String × String) :=
  runMethodsParallel transports "listen"

/-- Method `close` from `src/unnamed/part_002` lines 216 to 219. -/
def closeV2 (transports : List (String × LifecycleRec)) : List (String × String) :=
  runMethodsParallel transports "close"

/-- The two header fields `createPayloadWrapper` reads (absent meta values
are `none`). -/
structure CPWHeaders where
  localFlag : Option JSValue
  timeout : Option JSValue
deriving DecidableEq, Repr

/-- A remote transport record as stored by `registerRemoteTransport` in
`src/src/utils.js`: the `request` method (abstracted to its behavior) and
the `options` object reduced to its optional `timeout`. -/
structure RemoteRec where
  request : Option HandlerBeh
  optionsTimeout : Option JSValue
deriving DecidableEq, Repr

/-- The matcher payload `createPayloadWrapper` receives: a function for local
patterns or a transport name string. -/
inductive WPayload where
  | fn (beh : HandlerBeh)
  | name (s : String)
deriving DecidableEq, Repr

/-- Function `createPayloadWrapper` from `src/src/utils.js` lines 170 to 183: a local
hit (truthy `headers.local`, or a function payload) passes through; a string
payload is resolved in the remote transport storage, failing when the record
or its `request` method is missing; when the transport declares a truthy
`options.timeout` and the headers carry no truthy `timeout`, the transport
timeout is written into `headers.timeout`. -/
def createPayloadWrapper (payload : WPayload) (headers : CPWHeaders)
    (storage : List (String × RemoteRec)) :
    Except String (Option HandlerBeh × CPWHeaders) :=
  if jsTruthyOpt headers.localFlag ||
      (match payload with | .fn _ => true | .name _ => false) then
    .ok ((match payload with | .fn b => some b | .name _ => none), headers)
  else
    match payload with
    | .fn b => .ok (some b, headers)
    | .name s =>
        match (storage.find? (fun t => t.1 == s)).map (fun t => t.2) with
        | none => .error ("transport " ++ s ++ " has no .request method")
        | some rec2 =>
            match rec2.request with
            | none => .error ("transport " ++ s ++ " has no .request method")
            | some beh =>
                let headers2 :=
                  if jsTruthyOpt rec2.optionsTimeout && !(jsTruthyOpt headers.timeout)
                  then CPWHeaders.mk headers.localFlag rec2.optionsTimeout
                  else headers
                .ok (some beh, headers2)

/-- A pattern without meta keys (route patterns as `add` normally sees
them). -/
def metaFree (p : Obj) : Prop := ∀ kv ∈ p, isMetaKey kv.1 = false

/-- Distinct keys, the shape of any pattern built from a JavaScript object. -/
def keysNodup (p : Obj) : Prop := (p.map Prod.fst).Nodup

/-- Number of index entries whose pattern `isEqual`s `p`. -/
def countEquiv (idx : Index) (p : Obj) : Nat :=
  (idx.filter (fun e => pequal e.1 p)).length

/-- Invariant I3: at most one entry per exactly-equal pattern. -/
def atMostOne (idx : Index) : Prop := ∀ p : Obj, countEquiv idx p ≤ 1

instance (p : Obj) : Decidable (metaFree p) :=
  List.decidableBAll _ p

instance (p : Obj) : Decidable (keysNodup p) :=
  List.nodupDecidable _

instance : DecidableEq (Index × Index) :=
  @instDecidableEqProd Index Index inferInstance inferInstance

/-- Heap addresses for the aliasing model. -/
abbrev Addr := Nat

/-- A small JavaScript heap of flat pattern objects: a store from addresses
to objects plus the next fresh address.  Flat objects suffice here:
`objectify` is `lodash.cloneDeep`, which for a flat pattern copies its own
fields into a fresh object. -/
structure Heap where
  objs : List (Addr × Obj)
  next : Addr
deriving DecidableEq, Repr

def Heap.get (h : Heap) (a : Addr) : Option Obj :=
  (h.objs.find? (fun e => e.1 == a)).map (fun e => e.2)

def Heap.alloc (h : Heap) (o : Obj) : Addr × Heap :=
  (h.next, ⟨h.objs ++ [(h.next, o)], h.next + 1⟩)

/-- Caller-side in-place mutation `p[k] = v` of the object at `a`. -/
def Heap.setField (h : Heap) (a : Addr) (k : String) (v : JSValue) : Heap :=
  ⟨h.objs.map (fun e => if e.1 == a then (e.1, setKey e.2 k v) else e), h.next⟩

/-- Addresses in the store are below the allocation counter. -/
def Heap.wf (h : Heap) : Prop := ∀ e ∈ h.objs, e.1 < h.next

/-- Function `objectify` on an object argument, seen through the heap:
`lodash.cloneDeep` copies the (flat) object at `a` to a fresh address. -/
def cloneDeepH (h : Heap) (a : Addr) : Addr × Heap :=
  h.alloc ((h.get a).getD [])

/-- Method `add` from the heap point of view (`src/unnamed/part_002` lines 58 to
75): `pattern = objectify(_pattern)` clones the object of the caller, and
the clone address is what the index entry stores. -/
def addH (h : Heap) (idx : List (Addr × Payload)) (a : Addr) (pl : Payload) :
    Heap × List (Addr × Payload) :=
  let ah := cloneDeepH h a
  (ah.2, idx ++ [(ah.1, pl)])

/-- The pattern composition of `act` from the heap point of view:
`ld.assign` of an empty literal, the clone of the input pattern and the
override payload writes into a freshly allocated object only. -/
def actMergeH (h : Heap) (a : Addr) (payload : Obj) : Addr × Heap :=
  let ah := cloneDeepH h a
  let merged := payload.foldl (fun o kv => setKey o kv.1 kv.2) ((ah.2.get ah.1).getD [])
  ah.2.alloc merged

theorem getKey_nil (k : String) : getKey [] k = none := rfl

theorem getKey_cons (kv : String × JSValue) (o : Obj) (k : String) :
    getKey (kv :: o) k = if kv.1 = k then some kv.2 else getKey o k := by
  by_cases h : kv.1 = k
  · have hb : (kv.1 == k) = true := by simp [h]
    simp [getKey, List.find?, hb, h]
  · have hb : (kv.1 == k) = false := by simp [h]
    simp [getKey, List.find?, hb, h]

theorem getKey_append (a b : Obj) (k : String) :
    getKey (a ++ b) k = (getKey a k).or (getKey b k) := by
  induction a with
  | nil => simp [getKey_nil, getKey]
  | cons kv t ih =>
      rw [List.cons_append, getKey_cons, getKey_cons]
      by_cases h : kv.1 = k <;> simp [h, ih]

theorem getKey_map_overwrite_self (o : Obj) (k : String) (v : JSValue) :
    getKey (o.map (fun kv => if kv.1 == k then (k, v) else kv)) k =
      if o.any (fun kv => kv.1 == k) then some v else none := by
  induction o with
  | nil => simp [getKey_nil]
  | cons kv t ih =>
      by_cases hk : kv.1 = k
      · have hb : (kv.1 == k) = true := by simp [hk]
        rw [List.map_cons]
        simp only [hb, if_true, List.any_cons, Bool.true_or]
        rw [getKey_cons]
        simp
      · have hb : (kv.1 == k) = false := by simp [hk]
        rw [List.map_cons]
        simp only [hb, Bool.false_eq_true, if_false, List.any_cons, Bool.false_or]
        rw [getKey_cons, if_neg hk, ih]

theorem getKey_map_overwrite_other (o : Obj) (k k' : String) (v : JSValue)
    (hk' : k' ≠ k) :
    getKey (o.map (fun kv => if kv.1 == k then (k, v) else kv)) k' = getKey o k' := by
  induction o with
  | nil => rfl
  | cons kv t ih =>
      by_cases hk : kv.1 = k
      · have hb : (kv.1 == k) = true := by simp [hk]
        rw [List.map_cons]
        simp only [hb, if_true]
        rw [getKey_cons, getKey_cons, if_neg (fun h => hk' h.symm),
          if_neg (fun h : kv.1 = k' => hk' (h ▸ hk)), ih]
      · have hb : (kv.1 == k) = false := by simp [hk]
        rw [List.map_cons]
        simp only [hb, Bool.false_eq_true, if_false]
        rw [getKey_cons, getKey_cons, ih]

theorem getKey_eq_none_of_not_any (o : Obj) (k : String)
    (hmem : ¬ (o.any fun kv => kv.1 == k) = true) :
    getKey o k = none := by
  unfold getKey
  rw [List.find?_eq_none.mpr]
  · rfl
  · intro x hx hc
    exact hmem (List.any_eq_true.mpr ⟨x, hx, hc⟩)

theorem getKey_setKey (o : Obj) (k k' : String) (v : JSValue) :
    getKey (setKey o k v) k' = if k' = k then some v else getKey o k' := by
  unfold setKey
  by_cases hmem : (o.any fun kv => kv.1 == k) = true
  · rw [if_pos hmem]
    by_cases hk : k' = k
    · subst hk
      rw [if_pos rfl, getKey_map_overwrite_self, if_pos hmem]
    · rw [if_neg hk, getKey_map_overwrite_other o k k' v hk]
  · rw [if_neg hmem, getKey_append]
    by_cases hk : k' = k
    · subst hk
      rw [if_pos rfl, getKey_eq_none_of_not_any o k' hmem, getKey_cons, if_pos rfl]
      rfl
    · rw [if_neg hk, getKey_cons, if_neg (fun h => hk h.symm), getKey_nil,
        Option.or_none]

theorem dropWhile_idem (p : Char → Bool) (l : List Char) :
    (l.dropWhile p).dropWhile p = l.dropWhile p := by
  induction l with
  | nil => rfl
  | cons c t ih =>
      by_cases h : p c = true
      · rw [List.dropWhile_cons_of_pos h, ih]
      · rw [List.dropWhile_cons_of_neg (by simp [h]),
          List.dropWhile_cons_of_neg (by simp [h])]

theorem dropWhile_append_cons (p : Char → Bool) (a b : List Char) (c : Char)
    (hc : p c = false) :
    (a ++ c :: b).dropWhile p = a.dropWhile p ++ c :: b := by
  induction a with
  | nil =>
      simp only [List.nil_append, List.dropWhile_nil]
      rw [List.dropWhile_cons_of_neg (by simp [hc])]
  | cons x t ih =>
      by_cases h : p x = true
      · rw [List.cons_append, List.dropWhile_cons_of_pos h, ih,
          List.dropWhile_cons_of_pos h]
      · rw [List.cons_append, List.dropWhile_cons_of_neg (by simp [h]),
          List.dropWhile_cons_of_neg (by simp [h]), List.cons_append]

theorem trimL_append_cons (a b : List Char) (c : Char) (hc : isWs c = false) :
    trimL (a ++ c :: b) = trimL a ++ c :: b :=
  dropWhile_append_cons isWs a b c hc

theorem trimR_append_cons (a b : List Char) (c : Char) (hc : isWs c = false) :
    trimR (a ++ c :: b) = a ++ c :: trimR b := by
  unfold trimR
  rw [List.reverse_append, List.reverse_cons, List.append_assoc,
    show [c] ++ a.reverse = c :: a.reverse from rfl,
    dropWhile_append_cons isWs b.reverse a.reverse c hc]
  simp

theorem trimChars_append_cons (a b : List Char) (c : Char) (hc : isWs c = false) :
    trimChars (a ++ c :: b) = trimL a ++ c :: trimR b := by
  unfold trimChars
  rw [trimL_append_cons a b c hc, trimR_append_cons (trimL a) b c hc]

theorem trimL_idem (l : List Char) : trimL (trimL l) = trimL l :=
  dropWhile_idem isWs l

theorem trimR_idem (l : List Char) : trimR (trimR l) = trimR l := by
  unfold trimR
  rw [List.reverse_reverse, dropWhile_idem]

theorem trimR_cons (c : Char) (t : List Char) :
    trimR (c :: t) =
      if trimR t = [] then (if isWs c then [] else [c]) else c :: trimR t := by
  unfold trimR
  rw [show (c :: t).reverse = t.reverse ++ [c] from by simp]
  by_cases h : t.reverse.dropWhile isWs = []
  · rw [List.dropWhile_append]
    simp only [h, List.isEmpty_nil, if_true]
    by_cases hc : isWs c = true
    · rw [List.dropWhile_cons_of_pos hc]
      simp [h, hc]
    · rw [List.dropWhile_cons_of_neg (by simp [hc])]
      simp [h, hc]
  · rw [List.dropWhile_append]
    simp only [List.isEmpty_eq_true, h, if_false]
    have : (t.reverse.dropWhile isWs).reverse ≠ [] := by
      simpa using h
    simp [this]

theorem trimL_trimR_comm (l : List Char) : trimL (trimR l) = trimR (trimL l) := by
  induction l with
  | nil => rfl
  | cons c t ih =>
      by_cases hc : isWs c = true
      · rw [show trimL (c :: t) = trimL t from List.dropWhile_cons_of_pos hc]
        rw [trimR_cons]
        by_cases h : trimR t = []
        · simp only [h, if_true, hc, if_true]
          rw [← ih, h]
        · simp only [h, if_false]
          rw [show trimL (c :: trimR t) = trimL (trimR t) from
            List.dropWhile_cons_of_pos hc, ih]
      · rw [show trimL (c :: t) = c :: t from List.dropWhile_cons_of_neg (by simp [hc])]
        rw [trimR_cons]
        by_cases h : trimR t = []
        · simp only [h, if_true, hc]
          simp only [Bool.false_eq_true, if_false]
          rw [show trimL [c] = [c] from List.dropWhile_cons_of_neg (by simp [hc])]
        · simp only [h, if_false]
          rw [show trimL (c :: trimR t) = c :: trimR t from
            List.dropWhile_cons_of_neg (by simp [hc])]

theorem trimChars_trimL (l : List Char) : trimChars (trimL l) = trimChars l := by
  unfold trimChars
  rw [trimL_idem]

theorem trimChars_trimR (l : List Char) : trimChars (trimR l) = trimChars l := by
  unfold trimChars
  rw [trimL_trimR_comm, trimR_idem]

theorem trimChars_idem (l : List Char) : trimChars (trimChars l) = trimChars l := by
  unfold trimChars
  rw [show trimL (trimR (trimL l)) = trimR (trimL (trimL l)) from trimL_trimR_comm _,
    trimL_idem, trimR_idem]

theorem splitOnCharAux_shift (sep : Char) (l acc : List Char) :
    splitOnCharAux sep l acc =
      (acc.reverse ++ (splitOnChar sep l).headD []) :: (splitOnChar sep l).tail := by
  induction l generalizing acc with
  | nil => simp [splitOnChar, splitOnCharAux]
  | cons c rest ih =>
      by_cases h : c = sep
      · have hb : (c == sep) = true := by simp [h]
        rw [show splitOnCharAux sep (c :: rest) acc =
            acc.reverse :: splitOnCharAux sep rest [] from by
          simp [splitOnCharAux, hb]]
        rw [show splitOnChar sep (c :: rest) = [] :: splitOnChar sep rest from by
          simp [splitOnChar, splitOnCharAux, hb]]
        simp [splitOnChar]
      · have hb : (c == sep) = false := by simp [h]
        rw [show splitOnCharAux sep (c :: rest) acc =
            splitOnCharAux sep rest (c :: acc) from by
          simp [splitOnCharAux, hb]]
        rw [ih (c :: acc)]
        rw [show splitOnChar sep (c :: rest) = splitOnCharAux sep rest [c] from by
          simp [splitOnChar, splitOnCharAux, hb]]
        rw [ih [c]]
        simp

theorem splitOnChar_cons_sep (sep : Char) (l : List Char) :
    splitOnChar sep (sep :: l) = [] :: splitOnChar sep l := by
  simp [splitOnChar, splitOnCharAux]

theorem splitOnChar_cons_other (sep c : Char) (l : List Char) (h : c ≠ sep) :
    splitOnChar sep (c :: l) =
      (c :: (splitOnChar sep l).headD []) :: (splitOnChar sep l).tail := by
  have hb : (c == sep) = false := by simp [h]
  rw [show splitOnChar sep (c :: l) = splitOnCharAux sep l [c] from by
    simp [splitOnChar, splitOnCharAux, hb]]
  rw [splitOnCharAux_shift]
  simp

theorem splitOnChar_of_not_mem (sep : Char) (l : List Char) (h : sep ∉ l) :
    splitOnChar sep l = [l] := by
  induction l with
  | nil => rfl
  | cons c t ih =>
      have hc : c ≠ sep := fun he => h (he ▸ List.mem_cons_self c t)
      have ht : sep ∉ t := fun hm => h (List.mem_cons_of_mem c hm)
      rw [splitOnChar_cons_other sep c t hc, ih ht]
      simp

theorem splitOnChar_append_sep (sep : Char) (a b : List Char) (h : sep ∉ a) :
    splitOnChar sep (a ++ sep :: b) = a :: splitOnChar sep b := by
  induction a with
  | nil =>
      rw [List.nil_append, splitOnChar_cons_sep]
  | cons c t ih =>
      have hc : c ≠ sep := fun he => h (he ▸ List.mem_cons_self c t)
      have ht : sep ∉ t := fun hm => h (List.mem_cons_of_mem c hm)
      rw [List.cons_append, splitOnChar_cons_other sep c _ hc, ih ht]
      simp

theorem data_append (a b : String) : (a ++ b).data = a.data ++ b.data := by
  cases a
  cases b
  rfl

theorem joinSep_data (sep : String) (segs : List String) :
    (joinSep sep segs).data = joinCL sep.data (segs.map String.data) := by
  induction segs with
  | nil => rfl
  | cons x xs ih =>
      cases xs with
      | nil => rfl
      | cons y ys =>
          rw [show joinSep sep (x :: y :: ys) = x ++ sep ++ joinSep sep (y :: ys)
            from rfl]
          rw [data_append, data_append, ih]
          rfl

theorem splitOnChar_joinCL (sep : Char) (segs : List (List Char))
    (hne : segs ≠ []) (h : ∀ s ∈ segs, sep ∉ s) :
    splitOnChar sep (joinCL [sep] segs) = segs := by
  induction segs with
  | nil => exact absurd rfl hne
  | cons x xs ih =>
      cases xs with
      | nil =>
          rw [show joinCL [sep] [x] = x from rfl]
          exact splitOnChar_of_not_mem sep x (h x (List.mem_cons_self x []))
      | cons y ys =>
          rw [show joinCL [sep] (x :: y :: ys) = x ++ sep :: joinCL [sep] (y :: ys)
            from by simp [joinCL]]
          rw [splitOnChar_append_sep sep x _ (h x (List.mem_cons_self x _))]
          rw [ih (by simp) (fun s hs => h s (List.mem_cons_of_mem x hs))]

theorem splitOnChar_joinCL_pad (sep : Char) (hsp : ' ' ≠ sep)
    (segs : List (List Char)) (hne : segs ≠ []) (h : ∀ s ∈ segs, sep ∉ s) :
    splitOnChar sep (joinCL [sep, ' '] segs) = padTail segs := by
  induction segs with
  | nil => exact absurd rfl hne
  | cons x xs ih =>
      cases xs with
      | nil =>
          rw [show joinCL [sep, ' '] [x] = x from rfl]
          exact splitOnChar_of_not_mem sep x (h x (List.mem_cons_self x []))
      | cons y ys =>
          rw [show joinCL [sep, ' '] (x :: y :: ys) =
              x ++ sep :: ' ' :: joinCL [sep, ' '] (y :: ys) from by
            simp [joinCL]]
          rw [splitOnChar_append_sep sep x _ (h x (List.mem_cons_self x _))]
          rw [splitOnChar_cons_other sep ' ' _ hsp]
          rw [ih (by simp) (fun s hs => h s (List.mem_cons_of_mem x hs))]
          rfl

theorem mem_trimL (c : Char) (l : List Char) (h : c ∈ trimL l) : c ∈ l :=
  (List.dropWhile_sublist isWs).mem h

theorem mem_trimR (c : Char) (l : List Char) (h : c ∈ trimR l) : c ∈ l := by
  unfold trimR at h
  rw [List.mem_reverse] at h
  exact List.mem_reverse.mp ((List.dropWhile_sublist isWs).mem h)

theorem mem_trimChars (c : Char) (l : List Char) (h : c ∈ trimChars l) : c ∈ l :=
  mem_trimL c l (mem_trimR c (trimL l) h)

theorem jsTrim_space (s : String) : jsTrim (" " ++ s) = jsTrim s := by
  unfold jsTrim
  rw [data_append]
  unfold trimChars trimL
  rw [show (" ".data ++ s.data).dropWhile isWs = s.data.dropWhile isWs from by
    simp [isWs]]

theorem parseSegment_space (o : Obj) (s : String) :
    parseSegment o (" " ++ s) = parseSegment o s := by
  unfold parseSegment
  rw [jsTrim_space]

theorem jsTrim_jsTrim (s : String) : jsTrim (jsTrim s) = jsTrim s := by
  unfold jsTrim
  rw [show (String.mk (trimChars s.data)).data = trimChars s.data from rfl,
    trimChars_idem]

theorem parseSegment_keyOnly (o : Obj) (k : String) (hk : (':' : Char) ∉ k.data) :
    parseSegment o k = setKey o (jsTrim k) (JSValue.regex ".*") := by
  unfold parseSegment
  have htk : (':' : Char) ∉ (jsTrim k).data :=
    fun hm => hk (mem_trimChars _ _ hm)
  rw [show jsSplit ':' (jsTrim k) = [jsTrim k] from by
    unfold jsSplit
    rw [splitOnChar_of_not_mem _ _ htk]
    rfl]
  simp only [List.headD, List.get?, Option.getD]
  rw [jsTrim_jsTrim]
  rfl

theorem parseSegment_keyValue (o : Obj) (k v : String)
    (hk : (':' : Char) ∉ k.data) (hv : (':' : Char) ∉ v.data) :
    parseSegment o (k ++ ":" ++ v) =
      setKey o (jsTrim k)
        (if headIs '/' (jsTrim v) then JSValue.regex (slice1m1 (jsTrim v))
         else JSValue.str (jsTrim v)) := by
  unfold parseSegment
  have hdata : (k ++ ":" ++ v).data = k.data ++ ':' :: v.data := by
    rw [data_append, data_append]
    simp
  have htrim : (jsTrim (k ++ ":" ++ v)).data = trimL k.data ++ ':' :: trimR v.data := by
    unfold jsTrim
    rw [show (String.mk (trimChars (k ++ ":" ++ v).data)).data =
        trimChars (k ++ ":" ++ v).data from rfl, hdata]
    exact trimChars_append_cons k.data v.data ':' (by decide)
  have hkt : (':' : Char) ∉ trimL k.data := fun hm => hk (mem_trimL _ _ hm)
  have hvt : (':' : Char) ∉ trimR v.data := fun hm => hv (mem_trimR _ _ hm)
  rw [show jsSplit ':' (jsTrim (k ++ ":" ++ v)) =
      [⟨trimL k.data⟩, ⟨trimR v.data⟩] from by
    unfold jsSplit
    rw [htrim, splitOnChar_append_sep _ _ _ hkt, splitOnChar_of_not_mem _ _ hvt]
    rfl]
  simp only [List.headD, List.get?, Option.getD]
  have h1 : jsTrim (String.mk (trimL k.data)) = jsTrim k := by
    unfold jsTrim
    rw [show (String.mk (trimL k.data)).data = trimL k.data from rfl, trimChars_trimL]
  have h2 : jsTrim (String.mk (trimR v.data)) = jsTrim v := by
    unfold jsTrim
    rw [show (String.mk (trimR v.data)).data = trimR v.data from rfl, trimChars_trimR]
  rw [h1, h2]

theorem renderSeg_no_comma (it : String × Option String) (h : segWf it) :
    (',' : Char) ∉ (renderSeg it).data := by
  match it with
  | (k, none) => exact h.1
  | (k, some v) =>
      intro hm
      rw [show renderSeg (k, some v) = k ++ ":" ++ v from rfl, data_append,
        data_append] at hm
      rcases List.mem_append.mp hm with h1 | h1
      · rcases List.mem_append.mp h1 with h2 | h2
        · exact h.1.1 h2
        · simp at h2
      · exact h.2.1 h1

theorem foldl_parseSegment_render (items : List (String × Option String))
    (o : Obj) (h : ∀ it ∈ items, segWf it) :
    items.foldl (fun acc it => parseSegment acc (renderSeg it)) o =
      items.foldl (fun acc it => setKey acc (jsTrim it.1) (segValueSpec it.2)) o := by
  induction items generalizing o with
  | nil => rfl
  | cons it rest ih =>
      have hit := h it (List.mem_cons_self it rest)
      have hrest := fun x hx => h x (List.mem_cons_of_mem it hx)
      rw [List.foldl_cons, List.foldl_cons, ih _ hrest]
      congr 1
      match it with
      | (k, none) =>
          exact parseSegment_keyOnly o k hit.2
      | (k, some v) =>
          rw [show renderSeg (k, some v) = k ++ ":" ++ v from rfl]
          exact parseSegment_keyValue o k v hit.1.2 hit.2.2

theorem mk_data_eq (s : String) : String.mk s.data = s := rfl

theorem text2obj_joinComma (segs : List String) (hne : segs ≠ [])
    (h : ∀ s ∈ segs, (',' : Char) ∉ s.data) :
    text2obj (joinSep "," segs) = segs.foldl parseSegment [] := by
  unfold text2obj jsSplit
  rw [joinSep_data]
  rw [show (",").data = [','] from rfl]
  rw [splitOnChar_joinCL ',' (segs.map String.data)
    (by simpa using hne)
    (by
      intro s hs
      rcases List.mem_map.mp hs with ⟨t, ht, rfl⟩
      exact h t ht)]
  rw [List.map_map]
  rw [show ((fun l : List Char => String.mk l) ∘ String.data) = id from by
    funext s
    rfl]
  rw [List.map_id]

theorem foldl_parseSegment_pad (xs : List String) (o : Obj) :
    (xs.map (fun s => " " ++ s)).foldl parseSegment o = xs.foldl parseSegment o := by
  induction xs generalizing o with
  | nil => rfl
  | cons x rest ih =>
      rw [List.map_cons, List.foldl_cons, List.foldl_cons, parseSegment_space, ih]

theorem text2obj_joinCommaSpace (segs : List String) (hne : segs ≠ [])
    (h : ∀ s ∈ segs, (',' : Char) ∉ s.data) :
    text2obj (joinSep ", " segs) = segs.foldl parseSegment [] := by
  unfold text2obj jsSplit
  rw [joinSep_data]
  rw [show (", ").data = [',', ' '] from rfl]
  rw [splitOnChar_joinCL_pad ',' (by decide) (segs.map String.data)
    (by simpa using hne)
    (by
      intro s hs
      rcases List.mem_map.mp hs with ⟨t, ht, rfl⟩
      exact h t ht)]
  cases segs with
  | nil => exact absurd rfl hne
  | cons x xs =>
      rw [show padTail ((x :: xs).map String.data) =
          x.data :: (xs.map String.data).map (fun s => ' ' :: s) from rfl]
      rw [List.map_cons, List.foldl_cons, mk_data_eq]
      rw [List.map_map, List.map_map]
      rw [show (((fun l : List Char => String.mk l) ∘ (fun s => ' ' :: s)) ∘ String.data)
          = (fun s => " " ++ s) from by
        funext s
        cases s
        rfl]
      rw [foldl_parseSegment_pad, List.foldl_cons]

/-- C7, counterexample: the claim says a value becomes a regex literal exactly
when its first AND last characters are slashes, but `text2obj` tests only the
first character (`trimmedValue[0] === '/'`): the value `/abc` has first
character slash, last character `c`, and is still parsed as a regex with its
first and last characters stripped, yielding source `ab` rather than the
plain string `/abc`. -/
theorem C7_counterexample :
    text2obj "k:/abc" = [("k", JSValue.regex "ab")] ∧
      headIs '/' "/abc" = true ∧ lastIs '/' "/abc" = false := by
  decide

/-- C7, amended: for every comma-separated input built from `key[:value]`
items free of separator characters, `text2obj` trims whitespace around each
key and value, maps a missing value to the wildcard regex source `.*`,
interprets a value as a regex literal with its first and last characters
stripped exactly when its first character is a slash (the last character is
not inspected), and leaves every other value as a plain string; later items
overwrite earlier ones through `setKey`. -/
theorem C7_parse_segments (items : List (String × Option String))
    (hne : items ≠ []) (hwf : ∀ it ∈ items, segWf it) :
    text2obj (joinSep "," (items.map renderSeg)) =
      items.foldl (fun acc it => setKey acc (jsTrim it.1) (segValueSpec it.2)) [] := by
  rw [text2obj_joinComma (items.map renderSeg)
    (by simpa using hne)
    (by
      intro s hs
      rcases List.mem_map.mp hs with ⟨it, hit, rfl⟩
      exact renderSeg_no_comma it (hwf it hit))]
  rw [List.foldl_map]
  exact foldl_parseSegment_render items [] hwf

/-- C7, witness: the amended theorem applied to a concrete three-segment
input exercising a plain value, a missing value and whitespace trimming. -/
theorem C7_parse_segments_witness :
    text2obj "model:comments, target ,action: create " =
      [("model", JSValue.str "comments"), ("target", JSValue.regex ".*"),
        ("action", JSValue.str "create")] := by
  have h := C7_parse_segments
    [("model", some "comments"), (" target ", none), ("action", some " create ")]
    (by decide) (by decide)
  rw [show joinSep ","
      ([(("model" : String), some "comments"), (" target ", none),
        ("action", some " create ")].map renderSeg) =
      "model:comments, target ,action: create " from by decide] at h
  rw [h]
  decide

theorem foldl_congr_mem {α β : Type} (l : List α) (f g : β → α → β) (b : β)
    (h : ∀ acc x, x ∈ l → f acc x = g acc x) : l.foldl f b = l.foldl g b := by
  induction l generalizing b with
  | nil => rfl
  | cons x rest ih =>
      rw [List.foldl_cons, List.foldl_cons, h b x (List.mem_cons_self x rest)]
      exact ih _ (fun acc y hy => h acc y (List.mem_cons_of_mem x hy))

theorem foldl_setKey_append (p : Obj) (acc : Obj)
    (hnd : (p.map Prod.fst).Nodup)
    (hdisj : ∀ kv ∈ p, ¬ (acc.any fun kv2 => kv2.1 == kv.1) = true) :
    p.foldl (fun o kv => setKey o kv.1 kv.2) acc = acc ++ p := by
  induction p generalizing acc with
  | nil => simp
  | cons kv rest ih =>
      rw [List.foldl_cons]
      rw [show setKey acc kv.1 kv.2 = acc ++ [(kv.1, kv.2)] from by
        unfold setKey
        rw [if_neg (hdisj kv (List.mem_cons_self kv rest))]]
      rw [List.map_cons, List.nodup_cons] at hnd
      rw [ih (acc ++ [(kv.1, kv.2)]) hnd.2]
      · simp
      · intro kv2 hkv2
        rw [List.any_append]
        simp only [Bool.or_eq_true, not_or]
        constructor
        · exact hdisj kv2 (List.mem_cons_of_mem kv hkv2)
        · simp only [List.any_cons, List.any_nil, Bool.or_false]
          simp only [beq_iff_eq]
          intro he
          exact hnd.1 (he ▸ List.mem_map_of_mem Prod.fst hkv2)

theorem beautifySeg_eq_renderSeg (kv : String × JSValue) (hv : valWf kv.2) :
    beautifySeg kv = renderSeg (kv.1, some (vToString kv.2)) := by
  match kv with
  | (k, .str s) =>
      have hs : (s == "") = false := by
        simp only [beq_eq_false_iff_ne, ne_eq]
        exact hv.1
      simp [beautifySeg, jsTruthy, hs, renderSeg]
  | (k, .regex src) => simp [beautifySeg, jsTruthy, renderSeg]
  | (k, .num n) => exact absurd hv (by simp [valWf])
  | (k, .bool b) => exact absurd hv (by simp [valWf])
  | (k, .obj keys) => exact absurd hv (by simp [valWf])

theorem regex_toString_data (src : String) :
    (vToString (JSValue.regex src)).data = '/' :: (src.data ++ ['/']) := by
  rw [show vToString (JSValue.regex src) = "/" ++ src ++ "/" from rfl,
    data_append, data_append]
  rfl

theorem vToString_no_sep (v : JSValue) (hv : valWf v) :
    ((',' : Char) ∉ (vToString v).data) ∧ ((':' : Char) ∉ (vToString v).data) := by
  match v with
  | .str s => exact ⟨hv.2.2.1, hv.2.2.2.1⟩
  | .regex src =>
      rw [regex_toString_data]
      constructor
      · intro hm
        rcases List.mem_cons.mp hm with h1 | h1
        · exact absurd h1 (by decide)
        · rcases List.mem_append.mp h1 with h2 | h2
          · exact hv.2.1 h2
          · simp at h2
      · intro hm
        rcases List.mem_cons.mp hm with h1 | h1
        · exact absurd h1 (by decide)
        · rcases List.mem_append.mp h1 with h2 | h2
          · exact hv.2.2.1 h2
          · simp at h2
  | .num n => exact absurd hv (by simp [valWf])
  | .bool b => exact absurd hv (by simp [valWf])
  | .obj keys => exact absurd hv (by simp [valWf])

theorem jsTrim_regex_toString (src : String) :
    jsTrim (vToString (JSValue.regex src)) = vToString (JSValue.regex src) := by
  have h1 : (jsTrim (vToString (JSValue.regex src))).data =
      (vToString (JSValue.regex src)).data := by
    rw [show (jsTrim (vToString (JSValue.regex src))).data =
        trimChars (vToString (JSValue.regex src)).data from rfl]
    rw [regex_toString_data]
    rw [show ('/' :: (src.data ++ ['/'])) = ('/' :: src.data) ++ '/' :: [] from by simp]
    rw [trimChars_append_cons ('/' :: src.data) [] '/' (by decide)]
    rw [show trimL ('/' :: src.data) = '/' :: src.data from
      List.dropWhile_cons_of_neg (by simp [isWs])]
    rfl
  calc jsTrim (vToString (JSValue.regex src))
      = String.mk (jsTrim (vToString (JSValue.regex src))).data := rfl
    _ = String.mk (vToString (JSValue.regex src)).data := by rw [h1]
    _ = vToString (JSValue.regex src) := rfl

theorem segValueSpec_vToString (v : JSValue) (hv : valWf v) :
    segValueSpec (some (vToString v)) = v := by
  match v with
  | .str s =>
      rw [show segValueSpec (some (vToString (JSValue.str s))) =
          (if headIs '/' (jsTrim s) then JSValue.regex (slice1m1 (jsTrim s))
           else JSValue.str (jsTrim s)) from rfl]
      rw [hv.2.1, if_neg (by rw [hv.2.2.2.2]; exact Bool.false_ne_true)]
  | .regex src =>
      rw [show segValueSpec (some (vToString (JSValue.regex src))) =
          (if headIs '/' (jsTrim (vToString (JSValue.regex src)))
           then JSValue.regex (slice1m1 (jsTrim (vToString (JSValue.regex src))))
           else JSValue.str (jsTrim (vToString (JSValue.regex src)))) from rfl]
      rw [jsTrim_regex_toString]
      rw [if_pos (by
        rw [show headIs '/' (vToString (JSValue.regex src)) =
            (('/' : Char) == '/') from by
          unfold headIs
          rw [regex_toString_data]]
        decide)]
      congr 1
      unfold slice1m1
      rw [regex_toString_data]
      rw [show ('/' :: (src.data ++ ['/'])).drop 1 = src.data ++ ['/'] from rfl]
      rw [show (src.data ++ ['/']).dropLast = src.data from by simp]
  | .num n => exact absurd hv (by simp [valWf])
  | .bool b => exact absurd hv (by simp [valWf])
  | .obj keys => exact absurd hv (by simp [valWf])

/-- C8, counterexample: for the non-nested pattern with the empty-string value,
`beautify` renders the falsy value as the bare key `a`, and parsing that back
yields the wildcard regex, not the original empty string, so
`parse(beautify(p))` does not recover the fields of every non-nested pattern. -/
theorem C8_counterexample :
    text2obj (beautify [("a", JSValue.str "")]) = [("a", JSValue.regex ".*")] ∧
      JSValue.regex ".*" ≠ JSValue.str "" := by
  decide

/-- C8, amended: `parse(beautify(p))` recovers a non-nested pattern exactly when
its fields survive the string grammar: keys are trimmed and separator-free, and
every value is either a non-empty trimmed separator-free string not beginning
with a slash, or a regex whose non-empty source avoids separators, slashes and
backslashes.  Under those constraints the round trip is the identity. -/
theorem C8_parse_beautify_roundtrip (p : Obj) (hne : p ≠ [])
    (hnd : (p.map Prod.fst).Nodup)
    (hwf : ∀ kv ∈ p, keyWf kv.1 ∧ valWf kv.2) :
    text2obj (beautify p) = p := by
  unfold beautify
  have hmap : p.map beautifySeg =
      (p.map (fun kv => (kv.1, some (vToString kv.2)))).map renderSeg := by
    rw [List.map_map]
    apply List.map_congr_left
    intro kv hkv
    exact beautifySeg_eq_renderSeg kv (hwf kv hkv).2
  have hsegwf : ∀ it ∈ p.map (fun kv => (kv.1, some (vToString kv.2))), segWf it := by
    intro it hit
    rcases List.mem_map.mp hit with ⟨kv, hkv, rfl⟩
    exact ⟨⟨(hwf kv hkv).1.2.1, (hwf kv hkv).1.2.2⟩,
      vToString_no_sep kv.2 (hwf kv hkv).2⟩
  rw [hmap]
  rw [text2obj_joinCommaSpace _
    (by simpa using hne)
    (by
      intro s hs
      rcases List.mem_map.mp hs with ⟨it, hit, rfl⟩
      exact renderSeg_no_comma it (hsegwf it hit))]
  rw [List.foldl_map]
  rw [foldl_parseSegment_render _ [] hsegwf]
  rw [List.foldl_map]
  rw [foldl_congr_mem p _ (fun o kv => setKey o kv.1 kv.2) []
    (by
      intro acc kv hkv
      rw [show (kv.1, some (vToString kv.2)).1 = kv.1 from rfl,
        show (kv.1, some (vToString kv.2)).2 = some (vToString kv.2) from rfl]
      rw [(hwf kv hkv).1.1, segValueSpec_vToString kv.2 (hwf kv hkv).2])]
  rw [foldl_setKey_append p [] hnd (by simp)]
  rfl

/-- C8, witness: the amended round trip at a concrete pattern holding a plain
string value and a wildcard regex value. -/
theorem C8_parse_beautify_roundtrip_witness :
    text2obj "role:math, n:/.*/" =
      [("role", JSValue.str "math"), ("n", JSValue.regex ".*")] := by
  have h := C8_parse_beautify_roundtrip
    [("role", JSValue.str "math"), ("n", JSValue.regex ".*")]
    (by decide) (by decide) (by decide)
  rw [show beautify [(("role" : String), JSValue.str "math"),
      ("n", JSValue.regex ".*")] = "role:math, n:/.*/" from by decide] at h
  exact h

theorem find?_append {α : Type} (p : α → Bool) (a b : List α) :
    (a ++ b).find? p = (a.find? p).or (b.find? p) := by
  induction a with
  | nil => simp
  | cons x t ih =>
      by_cases h : p x = true
      · simp [List.find?_cons_of_pos, h]
      · rw [List.cons_append, List.find?_cons_of_neg _ (by simp [h]),
          List.find?_cons_of_neg _ (by simp [h]), ih]

theorem getKey_mergePairs (o : Obj) (pairs : List (String × JSValue)) (k : String) :
    getKey (mergePairs o pairs) k = (lastVal pairs k).or (getKey o k) := by
  induction pairs generalizing o with
  | nil => simp [mergePairs, lastVal]
  | cons kv rest ih =>
      rw [show mergePairs o (kv :: rest) = mergePairs (setKey o kv.1 kv.2) rest from rfl]
      rw [ih, getKey_setKey]
      rw [show lastVal (kv :: rest) k =
          ((rest.reverse.find? (fun kv2 => kv2.1 == k)).or
            ([kv].find? (fun kv2 => kv2.1 == k))).map (fun kv2 => kv2.2) from by
        unfold lastVal
        rw [List.reverse_cons, find?_append]]
      by_cases hk : kv.1 = k
      · have hb : (kv.1 == k) = true := by simp [hk]
        rw [List.find?, hb]
        cases h : rest.reverse.find? (fun kv2 => kv2.1 == k) <;>
          simp [lastVal, h, hk, Option.or]
      · have hb : (kv.1 == k) = false := by simp [hk]
        have hcond : ¬ (k = kv.1) := fun he => hk he.symm
        rw [List.find?, hb]
        cases h : rest.reverse.find? (fun kv2 => kv2.1 == k) <;>
          simp [lastVal, h, hcond, Option.or, List.find?]

theorem splitInner (pairs : List (String × JSValue)) (acc : Obj × Obj × Obj) :
    pairs.foldl (fun acc kv =>
        let message := if isMetaKey kv.1 then acc.1 else setKey acc.1 kv.1 kv.2
        let meta := if isMetaKey kv.1 then setKey acc.2.1 (dropSigil kv.1) kv.2 else acc.2.1
        let raw := setKey acc.2.2 kv.1 kv.2
        (message, meta, raw)) acc =
      (mergePairs acc.1 (pairs.filter (fun kv => !(isMetaKey kv.1))),
        mergePairs acc.2.1 ((pairs.filter (fun kv => isMetaKey kv.1)).map
          (fun kv => (dropSigil kv.1, kv.2))),
        mergePairs acc.2.2 pairs) := by
  induction pairs generalizing acc with
  | nil => rfl
  | cons kv rest ih =>
      rw [List.foldl_cons, ih]
      by_cases hm : isMetaKey kv.1 = true
      · simp only [hm, if_true, List.filter_cons]
        simp only [hm, Bool.not_true, Bool.false_eq_true, if_false, if_true]
        rfl
      · have hm2 : isMetaKey kv.1 = false := by simpa using hm
        simp only [hm2, Bool.false_eq_true, if_false, List.filter_cons]
        simp only [hm2, Bool.not_false, if_true, Bool.false_eq_true, if_false]
        rfl

theorem mergePairs_append (o : Obj) (a b : List (String × JSValue)) :
    mergePairs o (a ++ b) = mergePairs (mergePairs o a) b :=
  List.foldl_append _ _ a b

theorem split_components (parts : List PatInput) :
    split parts =
      (mergePairs [] ((allPairs parts).filter (fun kv => !(isMetaKey kv.1))),
        mergePairs [] (((allPairs parts).filter (fun kv => isMetaKey kv.1)).map
          (fun kv => (dropSigil kv.1, kv.2))),
        mergePairs [] (allPairs parts)) := by
  have main : ∀ (parts : List PatInput) (acc : Obj × Obj × Obj),
      parts.foldl (fun acc item =>
        (objectify item).foldl (fun acc kv =>
          let message := if isMetaKey kv.1 then acc.1 else setKey acc.1 kv.1 kv.2
          let meta := if isMetaKey kv.1 then setKey acc.2.1 (dropSigil kv.1) kv.2 else acc.2.1
          let raw := setKey acc.2.2 kv.1 kv.2
          (message, meta, raw)) acc) acc =
      (mergePairs acc.1 ((allPairs parts).filter (fun kv => !(isMetaKey kv.1))),
        mergePairs acc.2.1 (((allPairs parts).filter (fun kv => isMetaKey kv.1)).map
          (fun kv => (dropSigil kv.1, kv.2))),
        mergePairs acc.2.2 (allPairs parts)) := by
    intro parts
    induction parts with
    | nil => intro acc; rfl
    | cons item rest ih =>
        intro acc
        rw [List.foldl_cons, splitInner, ih]
        rw [show allPairs (item :: rest) = objectify item ++ allPairs rest from by
          simp [allPairs]]
        rw [List.filter_append, List.filter_append, List.map_append,
          mergePairs_append, mergePairs_append, mergePairs_append]
  exact main parts ([], [], [])

theorem find?_congr_mem {α : Type} (l : List α) (f g : α → Bool)
    (h : ∀ x ∈ l, f x = g x) : l.find? f = l.find? g := by
  induction l with
  | nil => rfl
  | cons x t ih =>
      by_cases hf : f x = true
      · rw [List.find?_cons_of_pos _ hf,
          List.find?_cons_of_pos _ ((h x (List.mem_cons_self x t)) ▸ hf)]
      · have hf2 : f x = false := by simpa using hf
        rw [List.find?_cons_of_neg _ (by simp [hf2]),
          List.find?_cons_of_neg _ (by
            rw [← h x (List.mem_cons_self x t)]
            simp [hf2])]
        exact ih (fun y hy => h y (List.mem_cons_of_mem x hy))

theorem find?_filter_of_imp {α : Type} (l : List α) (f pk : α → Bool)
    (h : ∀ x, f x = true → pk x = true) :
    (l.filter pk).find? f = l.find? f := by
  induction l with
  | nil => rfl
  | cons x t ih =>
      by_cases hf : f x = true
      · rw [List.filter_cons, if_pos (h x hf), List.find?_cons_of_pos _ hf,
          List.find?_cons_of_pos _ hf]
      · have hf2 : f x = false := by simpa using hf
        rw [List.find?_cons_of_neg _ (by simp [hf2]), List.filter_cons]
        by_cases hp : pk x = true
        · rw [if_pos hp, List.find?_cons_of_neg _ (by simp [hf2]), ih]
        · rw [if_neg (by simpa using hp), ih]

theorem find?_eq_none_of_all {α : Type} (l : List α) (f : α → Bool)
    (h : ∀ x ∈ l, f x = false) : l.find? f = none := by
  rw [List.find?_eq_none]
  intro x hx hfx
  rw [h x hx] at hfx
  exact absurd hfx (by simp)

theorem lastVal_filter (pairs : List (String × JSValue)) (k : String)
    (pk : String × JSValue → Bool) (h : ∀ kv : String × JSValue, kv.1 = k → pk kv = true) :
    lastVal (pairs.filter pk) k = lastVal pairs k := by
  unfold lastVal
  rw [← List.filter_reverse]
  rw [find?_filter_of_imp pairs.reverse (fun kv => kv.1 == k) pk
    (fun kv hf => h kv (by simpa using hf))]

theorem isMetaKey_eq (a b : String) (ha : isMetaKey a = true) (hb : isMetaKey b = true)
    (hd : dropSigil a = dropSigil b) : a = b := by
  unfold isMetaKey at ha hb
  unfold dropSigil at hd
  match hma : a.data, hmb : b.data with
  | [], _ => rw [hma] at ha; simp at ha
  | _ :: _, [] => rw [hmb] at hb; simp at hb
  | c1 :: t1, c2 :: t2 =>
      rw [hma] at ha hd
      rw [hmb] at hb hd
      have hc1 : c1 = '$' := by simpa using ha
      have hc2 : c2 = '$' := by simpa using hb
      have ht : t1 = t2 := by
        have h2 := congrArg String.data hd
        simpa using h2
      calc a = String.mk a.data := rfl
        _ = String.mk b.data := by rw [hma, hmb, hc1, hc2, ht]
        _ = b := rfl

theorem lastVal_meta_map (pairs : List (String × JSValue)) (k : String)
    (hk : isMetaKey k = true) :
    lastVal ((pairs.filter (fun kv => isMetaKey kv.1)).map
        (fun kv => (dropSigil kv.1, kv.2))) (dropSigil k) =
      lastVal pairs k := by
  unfold lastVal
  rw [show (List.map (fun kv : String × JSValue => (dropSigil kv.1, kv.2))
      (List.filter (fun kv => isMetaKey kv.1) pairs)).reverse =
      List.map (fun kv : String × JSValue => (dropSigil kv.1, kv.2))
        (List.filter (fun kv => isMetaKey kv.1) pairs).reverse from by
    simp]
  rw [List.find?_map]
  have hcongr : (pairs.filter (fun kv => isMetaKey kv.1)).reverse.find?
      ((fun kv : String × JSValue => kv.1 == dropSigil k) ∘
        (fun kv => (dropSigil kv.1, kv.2))) =
      (pairs.filter (fun kv => isMetaKey kv.1)).reverse.find?
        (fun kv => kv.1 == k) := by
    apply find?_congr_mem
    intro kv hkv
    have hmeta : isMetaKey kv.1 = true := by
      have hmem := List.mem_reverse.mp hkv
      have := List.of_mem_filter hmem
      simpa using this
    show (dropSigil kv.1 == dropSigil k) = (kv.1 == k)
    by_cases he : kv.1 = k
    · simp [he]
    · have hne : dropSigil kv.1 ≠ dropSigil k :=
        fun hd => he (isMetaKey_eq kv.1 k hmeta hk hd)
      simp [he, hne]
  rw [hcongr, ← List.filter_reverse,
    find?_filter_of_imp pairs.reverse (fun kv => kv.1 == k)
      (fun kv => isMetaKey kv.1)
      (fun kv hf => by
        have h1 : kv.1 = k := by simpa using hf
        show isMetaKey kv.1 = true
        rw [h1]
        exact hk)]
  cases h : pairs.reverse.find? (fun kv => kv.1 == k) <;> rfl

/-- C6: `split` merges partial patterns left to right into the
`(message, meta, raw)` triple: for every key, `raw` holds the value of the
last assignment; a non-meta key holds that value in `message`; a sigil key
holds it in `meta` under the key with the sigil stripped (and never appears
in `message`).  Later parts overwrite earlier ones, which is exactly the
`lastVal` reading of the concatenated assignments. -/
theorem C6_split_triple (parts : List PatInput) (k : String) :
    getKey (split parts).2.2 k = lastVal (allPairs parts) k ∧
      (isMetaKey k = false → getKey (split parts).1 k = lastVal (allPairs parts) k) ∧
      (isMetaKey k = true →
        getKey (split parts).2.1 (dropSigil k) = lastVal (allPairs parts) k ∧
          getKey (split parts).1 k = none) := by
  rw [split_components]
  refine ⟨?_, ?_, ?_⟩
  · dsimp only
    rw [getKey_mergePairs, getKey_nil, Option.or_none]
  · intro hk
    dsimp only
    rw [getKey_mergePairs, getKey_nil, Option.or_none]
    exact lastVal_filter _ k _ (fun kv hkv => by
      show (!(isMetaKey kv.1)) = true
      rw [hkv, hk]
      rfl)
  · intro hk
    dsimp only
    constructor
    · rw [getKey_mergePairs, getKey_nil, Option.or_none]
      exact lastVal_meta_map _ k hk
    · rw [getKey_mergePairs, getKey_nil, Option.or_none]
      unfold lastVal
      rw [find?_eq_none_of_all _ _ (fun kv hkv => by
        have hmem := List.mem_reverse.mp hkv
        have hnm := List.of_mem_filter hmem
        have hfalse : isMetaKey kv.1 = false := by simpa using hnm
        show (kv.1 == k) = false
        simp only [beq_eq_false_iff_ne, ne_eq]
        intro he
        rw [he, hk] at hfalse
        exact absurd hfalse (by simp))]
      rfl

/-- C6, witness: the triple lemma applied at a concrete pair of parts, one an
object and one a pattern string, with a colliding meta key: the later part
wins and the meta component carries the stripped key. -/
theorem C6_split_triple_witness :
    isMetaKey "$b" = true ∧
      getKey (split [PatInput.object [("a", JSValue.str "1"), ("$b", JSValue.str "2")],
          PatInput.str "a:3,$b:4"]).2.1 (dropSigil "$b") =
        lastVal (allPairs [PatInput.object [("a", JSValue.str "1"), ("$b", JSValue.str "2")],
          PatInput.str "a:3,$b:4"]) "$b" ∧
      lastVal (allPairs [PatInput.object [("a", JSValue.str "1"), ("$b", JSValue.str "2")],
        PatInput.str "a:3,$b:4"]) "$b" = some (JSValue.str "4") :=
  ⟨by decide,
    ((C6_split_triple [PatInput.object [("a", JSValue.str "1"), ("$b", JSValue.str "2")],
      PatInput.str "a:3,$b:4"] "$b").2.2 (by decide)).1,
    by decide⟩

/-- C9: an `act` call with an absent or falsy pattern argument (here
`undefined`/`null` modelled by `none`, and the empty string) settles with the
`pattern not specified` error before any lookup; the result does not depend
on the indices or transports, and the instance state, which `act` only
reads, is unchanged. -/
theorem C9_act_requires_pattern (inst : Instance) (payloads : List Obj) :
    act inst none payloads = ⟨.err .patternNotSpecified, []⟩ ∧
      act inst (some (PatInput.str "")) payloads = ⟨.err .patternNotSpecified, []⟩ := by
  constructor <;> rfl

/-- C1, counterexample: with `$timeout = -1` the effective timeout is not
positive, so the claim requires no timer and the direct handler result; the
code instead treats any nonzero timeout as truthy and races a (clamped)
timer, so the 10 ms handler loses and `act` fails with the pattern-timeout
error instead of returning the handler value. -/
theorem C1_counterexample :
    (-1 : Int) ≤ 0 ∧
      act ⟨500, false, MatchOrder.depth, fun _ => some false,
          [([("r", JSValue.str "x")],
            Payload.loc ⟨10, Except.ok (some (JSValue.str "v"))⟩)],
          [([("r", JSValue.str "x")],
            Payload.loc ⟨10, Except.ok (some (JSValue.str "v"))⟩)],
          []⟩
        (some (PatInput.object [("r", JSValue.str "x"), ("$timeout", JSValue.num (-1))]))
        [] = ⟨ExecOutcome.err ActErr.patternTimeout, []⟩ ∧
      ExecOutcome.err ActErr.patternTimeout ≠ ExecOutcome.ok (some (JSValue.str "v")) := by
  refine ⟨by decide, by decide, by decide⟩

/-- C1, amended: with an effective timeout
`timeout = $timeout || defaultTimeout` that is nonzero (truthy), the
execution envelope is raced against a timer of that many milliseconds,
clamped below at zero, and `act` fails with the pattern-timeout error exactly
when the handler is still pending at the timer; with a zero effective
timeout no timer is applied and the envelope result is returned directly. -/
theorem C1_timeout_envelope (inst : Instance) (pin : PatInput) (payloads : List Obj)
    (matchResult : Obj × Payload) (isLocal : Bool) (beh : HandlerBeh)
    (htruthy : patInputTruthy (some pin) = true)
    (hlookup : lookupIdx inst.matchOrder
      (if jsTruthyOpt (getKey (mergedPattern pin payloads) "$local")
       then inst.pmLocal else inst.pm) (mergedPattern pin payloads) = some matchResult)
    (hres : resolveMethod inst.transports matchResult.2 = .ok (isLocal, beh))
    (hnowait : (isLocal && jsTruthyOpt (getKey (mergedPattern pin payloads) "$nowait"))
      = false) :
    (effTimeout (mergedPattern pin payloads) inst.timeout = 0 →
      act inst (some pin) payloads = ⟨awaitOutcome inst.errorHandler beh, []⟩) ∧
    (effTimeout (mergedPattern pin payloads) inst.timeout ≠ 0 →
      act inst (some pin) payloads =
        (if (beh.dur : Int) > max (effTimeout (mergedPattern pin payloads) inst.timeout) 0
         then ⟨.err .patternTimeout, []⟩
         else ⟨awaitOutcome inst.errorHandler beh, []⟩)) := by
  unfold act
  rw [htruthy]
  simp only [Bool.not_true, Bool.false_eq_true, if_false, hlookup, hres, hnowait]
  constructor
  · intro h0
    simp [h0]
  · intro h0
    have hb : (effTimeout (mergedPattern pin payloads) inst.timeout == 0) = false := by
      simpa using h0
    simp only [hb, Bool.false_eq_true, if_false]

/-- C1, witness: the amended envelope at a concrete instance — a 10 ms local
handler under `$timeout = 100` returns its value. -/
theorem C1_timeout_envelope_witness :
    act ⟨500, false, MatchOrder.depth, fun _ => some false,
        [([("r", JSValue.str "x")],
          Payload.loc ⟨10, Except.ok (some (JSValue.str "v"))⟩)],
        [([("r", JSValue.str "x")],
          Payload.loc ⟨10, Except.ok (some (JSValue.str "v"))⟩)],
        []⟩
      (some (PatInput.object [("r", JSValue.str "x"), ("$timeout", JSValue.num 100)]))
      [] = ⟨ExecOutcome.ok (some (JSValue.str "v")), []⟩ := by
  have h := (C1_timeout_envelope
    ⟨500, false, MatchOrder.depth, fun _ => some false,
      [([("r", JSValue.str "x")],
        Payload.loc ⟨10, Except.ok (some (JSValue.str "v"))⟩)],
      [([("r", JSValue.str "x")],
        Payload.loc ⟨10, Except.ok (some (JSValue.str "v"))⟩)],
      []⟩
    (PatInput.object [("r", JSValue.str "x"), ("$timeout", JSValue.num 100)]) []
    ([("r", JSValue.str "x")], Payload.loc ⟨10, Except.ok (some (JSValue.str "v"))⟩)
    true ⟨10, Except.ok (some (JSValue.str "v"))⟩
    (by decide) (by decide) (by decide) (by decide)).2 (by decide)
  rw [h]
  decide

/-- C2: when the merged pattern carries a truthy `$nowait` and the lookup
resolves to a local handler, `act` settles immediately with an undefined
result (or the debug trace object when debugging is enabled), regardless of
the handler duration or outcome; a handler rejection is never raised to the
caller but is handed to the error classifier off the caller path, and is
logged exactly when the classifier does not mute it. -/
theorem C2_nowait_fire_and_forget (inst : Instance) (pin : PatInput) (payloads : List Obj)
    (matchResult : Obj × Payload) (beh : HandlerBeh)
    (htruthy : patInputTruthy (some pin) = true)
    (hlookup : lookupIdx inst.matchOrder
      (if jsTruthyOpt (getKey (mergedPattern pin payloads) "$local")
       then inst.pmLocal else inst.pm) (mergedPattern pin payloads) = some matchResult)
    (hloc : matchResult.2 = Payload.loc beh)
    (hnowait : jsTruthyOpt (getKey (mergedPattern pin payloads) "$nowait") = true) :
    (act inst (some pin) payloads).res =
      ExecOutcome.ok
        (if jsTruthyOpt (getKey (mergedPattern pin payloads) "$debug") || inst.debug
         then some (JSValue.obj []) else none) ∧
    (act inst (some pin) payloads).bg =
      (match beh.res with
       | .ok _ => []
       | .error en => [(en, inst.errorHandler en)]) ∧
    (∀ en, beh.res = .error en →
      (act inst (some pin) payloads).res ≠ ExecOutcome.err (ActErr.handlerFailure en) ∧
      (inst.errorHandler en = some false →
        (act inst (some pin) payloads).bg = [(en, some false)])) := by
  have hact : act inst (some pin) payloads =
      ⟨ExecOutcome.ok
        (if jsTruthyOpt (getKey (mergedPattern pin payloads) "$debug") || inst.debug
         then some (JSValue.obj []) else none),
        (match beh.res with
         | .ok _ => []
         | .error en => [(en, inst.errorHandler en)])⟩ := by
    unfold act
    rw [htruthy]
    simp only [Bool.not_true, Bool.false_eq_true, if_false, hlookup, hloc, hnowait]
    rw [show resolveMethod inst.transports (Payload.loc beh) = .ok (true, beh) from rfl]
    simp only [Bool.and_true]
    rw [if_pos trivial]
  refine ⟨by rw [hact], by rw [hact], ?_⟩
  intro en hen
  constructor
  · rw [hact]
    simp
  · intro hmute
    rw [hact]
    simp only [hen, hmute]

/-- C2, witness: a concrete `$nowait` call whose 5 ms local handler rejects
with error name `E`; `act` resolves with an undefined result and the error
is classified as not muted, hence logged, never raised. -/
theorem C2_nowait_fire_and_forget_witness :
    act ⟨500, false, MatchOrder.depth, fun _ => some false,
        [([("r", JSValue.str "x")], Payload.loc ⟨5, Except.error "E"⟩)],
        [([("r", JSValue.str "x")], Payload.loc ⟨5, Except.error "E"⟩)],
        []⟩
      (some (PatInput.object [("r", JSValue.str "x"), ("$nowait", JSValue.bool true)]))
      [] = ⟨ExecOutcome.ok none, [("E", some false)]⟩ := by
  have h := C2_nowait_fire_and_forget
    ⟨500, false, MatchOrder.depth, fun _ => some false,
      [([("r", JSValue.str "x")], Payload.loc ⟨5, Except.error "E"⟩)],
      [([("r", JSValue.str "x")], Payload.loc ⟨5, Except.error "E"⟩)],
      []⟩
    (PatInput.object [("r", JSValue.str "x"), ("$nowait", JSValue.bool true)]) []
    ([("r", JSValue.str "x")], Payload.loc ⟨5, Except.error "E"⟩)
    ⟨5, Except.error "E"⟩
    (by decide) (by decide) (by decide) (by decide)
  have h1 := h.1
  have h2 := h.2.1
  cases hout : act ⟨500, false, MatchOrder.depth, fun _ => some false,
      [([("r", JSValue.str "x")], Payload.loc ⟨5, Except.error "E"⟩)],
      [([("r", JSValue.str "x")], Payload.loc ⟨5, Except.error "E"⟩)],
      []⟩
    (some (PatInput.object [("r", JSValue.str "x"), ("$nowait", JSValue.bool true)]))
    [] with
  | mk res bg =>
      rw [hout] at h1 h2
      simp only at h1 h2
      rw [h1, h2]
      decide

/-- C5: on a transport declaring all four hooks, the part_002 entry points
each invoke the hook of their own name, but the part_001 `disconnect` —
whose own comment reads `disconnect from all remote instances` — invokes the
`connect` hook and never the `disconnect` hook, contradicting the claim the
spec states and part_002 implements. -/
theorem C5_disconnect_invokes_connect :
    connectV2 [("t1", ⟨["connect", "listen", "disconnect", "close"]⟩)]
        = [("t1", "connect")] ∧
      listenV2 [("t1", ⟨["connect", "listen", "disconnect", "close"]⟩)]
        = [("t1", "listen")] ∧
      closeV2 [("t1", ⟨["connect", "listen", "disconnect", "close"]⟩)]
        = [("t1", "close")] ∧
      disconnectV2 [("t1", ⟨["connect", "listen", "disconnect", "close"]⟩)]
        = [("t1", "disconnect")] ∧
      disconnectV1 [("t1", ⟨["connect", "listen", "disconnect", "close"]⟩)]
        = [("t1", "connect")] ∧
      disconnectV1 [("t1", ⟨["connect", "listen", "disconnect", "close"]⟩)]
        ≠ runMethodsParallel [("t1", ⟨["connect", "listen", "disconnect", "close"]⟩)]
            "disconnect" := by
  refine ⟨by decide, by decide, by decide, by decide, by decide, by decide⟩

/-- C3: when a call resolves to a remote transport whose record declares a
(truthy) `options.timeout` and the caller set no (truthy) `$timeout`, the
transport timeout is adopted into `headers.timeout`, the per-call deadline
of the meta-flag schema. -/
theorem C3_transport_timeout_adopted (s : String) (headers : CPWHeaders)
    (storage : List (String × RemoteRec)) (rec2 : RemoteRec) (beh : HandlerBeh)
    (t : JSValue)
    (hlocal : jsTruthyOpt headers.localFlag = false)
    (hfound : (storage.find? (fun x => x.1 == s)).map (fun x => x.2) = some rec2)
    (hreq : rec2.request = some beh)
    (hdecl : rec2.optionsTimeout = some t)
    (htruthy : jsTruthy t = true)
    (hunset : jsTruthyOpt headers.timeout = false) :
    createPayloadWrapper (WPayload.name s) headers storage =
      .ok (some beh, CPWHeaders.mk headers.localFlag (some t)) := by
  unfold createPayloadWrapper
  rw [hlocal]
  simp only [Bool.false_or, Bool.false_eq_true, if_false, hfound, hreq]
  rw [hdecl, show jsTruthyOpt (some t) = jsTruthy t from rfl, htruthy, hunset]
  simp

/-- C3, witness: a concrete storage entry with `options.timeout = 2000` and a
caller without `$timeout` gets `headers.timeout = 2000`. -/
theorem C3_transport_timeout_adopted_witness :
    createPayloadWrapper (WPayload.name "amqp")
        (CPWHeaders.mk none none)
        [("amqp", RemoteRec.mk (some ⟨7, Except.ok none⟩) (some (JSValue.num 2000)))] =
      .ok (some ⟨7, Except.ok none⟩, CPWHeaders.mk none (some (JSValue.num 2000))) := by
  have h := C3_transport_timeout_adopted "amqp" (CPWHeaders.mk none none)
    [("amqp", RemoteRec.mk (some ⟨7, Except.ok none⟩) (some (JSValue.num 2000)))]
    (RemoteRec.mk (some ⟨7, Except.ok none⟩) (some (JSValue.num 2000)))
    ⟨7, Except.ok none⟩ (JSValue.num 2000)
    (by decide) (by decide) (by decide) (by decide) (by decide) (by decide)
  exact h

theorem find?_some_pred {α : Type} (p : α → Bool) (l : List α) (a : α)
    (h : l.find? p = some a) : p a = true := by
  induction l with
  | nil => simp at h
  | cons x t ih =>
      by_cases hx : p x = true
      · rw [List.find?_cons_of_pos _ hx] at h
        injection h with h2
        rw [← h2]
        exact hx
      · rw [List.find?_cons_of_neg _ (by simp [hx])] at h
        exact ih h

theorem getKey_mem (p : Obj) (k : String) (v : JSValue)
    (h : getKey p k = some v) : (k, v) ∈ p := by
  unfold getKey at h
  cases hf : p.find? (fun kv => kv.1 == k) with
  | none => rw [hf] at h; exact absurd h (by simp)
  | some kv =>
      rw [hf] at h
      have hkey : (kv.1 == k) = true :=
        find?_some_pred (fun kv2 : String × JSValue => kv2.1 == k) p kv hf
      have hmem : kv ∈ p := List.mem_of_find?_eq_some hf
      have hk : kv.1 = k := by simpa using hkey
      have hv : kv.2 = v := by simpa using h
      have : (k, v) = kv := by
        rw [← hk, ← hv]
      rw [this]
      exact hmem

theorem mem_getKey_nodup (p : Obj) (k : String) (v : JSValue)
    (hnd : keysNodup p) (h : (k, v) ∈ p) : getKey p k = some v := by
  induction p with
  | nil => simp at h
  | cons kv rest ih =>
      unfold keysNodup at hnd
      rw [List.map_cons, List.nodup_cons] at hnd
      rcases List.mem_cons.mp h with h1 | h1
      · rw [← h1, getKey_cons]
        simp
      · have hkne : kv.1 ≠ k := by
          intro he
          exact hnd.1 (he ▸ (List.mem_map.mpr ⟨(k, v), h1, rfl⟩))
        rw [getKey_cons, if_neg hkne]
        exact ih hnd.2 h1

theorem pequal_getsEq (p q : Obj) (h : pequal p q = true) (k : String) :
    getKey p k = getKey q k := by
  unfold pequal at h
  rw [Bool.and_eq_true] at h
  obtain ⟨h1, h2⟩ := h
  rw [List.all_eq_true] at h1 h2
  cases hp : getKey p k with
  | some v =>
      have hmem := getKey_mem p k v hp
      have := h1 (k, v) hmem
      simp only [beq_iff_eq] at this
      exact this.symm
  | none =>
      cases hq : getKey q k with
      | none => rfl
      | some v =>
          have hmem := getKey_mem q k v hq
          have := h2 (k, v) hmem
          simp only [beq_iff_eq] at this
          rw [hp] at this
          exact absurd this (by simp)

theorem getsEq_pequal (p q : Obj) (hp : keysNodup p) (hq : keysNodup q)
    (h : ∀ k, getKey p k = getKey q k) : pequal p q = true := by
  unfold pequal
  rw [Bool.and_eq_true, List.all_eq_true, List.all_eq_true]
  constructor
  · intro kv hkv
    have := mem_getKey_nodup p kv.1 kv.2 hp hkv
    rw [h kv.1] at this
    simp [this]
  · intro kv hkv
    have := mem_getKey_nodup q kv.1 kv.2 hq hkv
    rw [← h kv.1] at this
    simp [this]

theorem pequal_matches (e p : Obj) (h : pequal e p = true) :
    matchesQ e p = true := by
  unfold pequal at h
  rw [Bool.and_eq_true] at h
  rw [List.all_eq_true] at h
  unfold matchesQ
  rw [List.all_eq_true]
  intro kv hkv
  have := h.1 kv hkv
  simp [this]

theorem mem_keys_getKey_some (p : Obj) (k : String) :
    k ∈ p.map Prod.fst → ∃ v, getKey p k = some v := by
  induction p with
  | nil => intro h; simp at h
  | cons kv0 rest ih =>
      intro h
      by_cases he : kv0.1 = k
      · exact ⟨kv0.2, by rw [getKey_cons, if_pos he]⟩
      · have h2 : k ∈ rest.map Prod.fst := by
          rcases List.mem_map.mp h with ⟨kv, hkv, hk⟩
          rcases List.mem_cons.mp hkv with h1 | h1
          · exact absurd (h1 ▸ hk) he
          · exact List.mem_map.mpr ⟨kv, h1, hk⟩
        rcases ih h2 with ⟨v, hv⟩
        exact ⟨v, by rw [getKey_cons, if_neg he]; exact hv⟩

theorem mem_keys_iff_getKey (p : Obj) (k : String) :
    k ∈ p.map Prod.fst ↔ ∃ v, getKey p k = some v := by
  constructor
  · exact mem_keys_getKey_some p k
  · intro ⟨v, hv⟩
    exact List.mem_map.mpr ⟨(k, v), getKey_mem p k v hv, rfl⟩

theorem depthOf_metaFree (p : Obj) (h : metaFree p) : depthOf p = p.length := by
  unfold depthOf
  rw [List.filter_eq_self.mpr (fun kv hkv => by rw [h kv hkv]; rfl)]

theorem matches_keys_subset (e p : Obj) (hmf : metaFree e)
    (hm : matchesQ e p = true) :
    ∀ k ∈ e.map Prod.fst, k ∈ p.map Prod.fst := by
  intro k hk
  rcases List.mem_map.mp hk with ⟨kv, hkv, rfl⟩
  unfold matchesQ at hm
  rw [List.all_eq_true] at hm
  have h1 := hm kv hkv
  rw [hmf kv hkv] at h1
  simp only [Bool.false_or, beq_iff_eq] at h1
  exact (mem_keys_iff_getKey p kv.1).mpr ⟨kv.2, h1⟩

theorem matches_getKey (e p : Obj) (hmf : metaFree e) (hm : matchesQ e p = true) :
    ∀ kv ∈ e, getKey p kv.1 = some kv.2 := by
  intro kv hkv
  unfold matchesQ at hm
  rw [List.all_eq_true] at hm
  have h1 := hm kv hkv
  rw [hmf kv hkv] at h1
  simpa using h1

theorem depth_le_of_matches (e p : Obj) (hmfe : metaFree e) (hnde : keysNodup e)
    (hmfp : metaFree p) (hm : matchesQ e p = true) :
    depthOf e ≤ depthOf p := by
  rw [depthOf_metaFree e hmfe, depthOf_metaFree p hmfp]
  have h1 : e.length = (e.map Prod.fst).toFinset.card := by
    rw [List.toFinset_card_of_nodup hnde, List.length_map]
  have h2 : (e.map Prod.fst).toFinset ⊆ (p.map Prod.fst).toFinset := by
    intro k hk
    exact List.mem_toFinset.mpr
      (matches_keys_subset e p hmfe hm k (List.mem_toFinset.mp hk))
  calc e.length = (e.map Prod.fst).toFinset.card := h1
    _ ≤ (p.map Prod.fst).toFinset.card := Finset.card_le_card h2
    _ ≤ (p.map Prod.fst).length := List.toFinset_card_le _
    _ = p.length := List.length_map _ _

theorem pequal_of_depth_eq (e p : Obj) (hmfe : metaFree e) (hnde : keysNodup e)
    (hmfp : metaFree p) (hndp : keysNodup p) (hm : matchesQ e p = true)
    (hd : depthOf e = depthOf p) : pequal e p = true := by
  have hlen : e.length = p.length := by
    rw [depthOf_metaFree e hmfe, depthOf_metaFree p hmfp] at hd
    exact hd
  have hsub : (e.map Prod.fst).toFinset ⊆ (p.map Prod.fst).toFinset := by
    intro k hk
    exact List.mem_toFinset.mpr
      (matches_keys_subset e p hmfe hm k (List.mem_toFinset.mp hk))
  have hfin : (e.map Prod.fst).toFinset = (p.map Prod.fst).toFinset := by
    apply Finset.eq_of_subset_of_card_le hsub
    rw [List.toFinset_card_of_nodup hnde, List.toFinset_card_of_nodup hndp,
      List.length_map, List.length_map, hlen]
  unfold pequal
  rw [Bool.and_eq_true, List.all_eq_true, List.all_eq_true]
  constructor
  · intro kv hkv
    rw [matches_getKey e p hmfe hm kv hkv]
    simp
  · intro kv hkv
    have hkmem : kv.1 ∈ e.map Prod.fst := by
      apply List.mem_toFinset.mp
      rw [hfin]
      exact List.mem_toFinset.mpr (List.mem_map.mpr ⟨kv, hkv, rfl⟩)
    rcases List.mem_map.mp hkmem with ⟨x, hx, hxk⟩
    have hxg : getKey p x.1 = some x.2 := matches_getKey e p hmfe hm x hx
    have hkg : getKey p kv.1 = some kv.2 := mem_getKey_nodup p kv.1 kv.2 hndp hkv
    rw [hxk] at hxg
    rw [hxg] at hkg
    have hv : x.2 = kv.2 := by
      injection hkg
    have hxe : getKey e x.1 = some x.2 := by
      apply mem_getKey_nodup e x.1 x.2 hnde
      rw [show (x.1, x.2) = x from rfl]
      exact hx
    rw [hxk, hv] at hxe
    simp [hxe]

theorem pickDepth_go (cands : List (Obj × Payload)) (b : Obj × Payload) :
    ∃ r, cands.foldl (fun best e =>
        match best with
        | none => some e
        | some b2 => if depthOf b2.1 < depthOf e.1 then some e else some b2)
      (some b) = some r ∧
      (r = b ∨ r ∈ cands) ∧ depthOf b.1 ≤ depthOf r.1 ∧
      ∀ e ∈ cands, depthOf e.1 ≤ depthOf r.1 := by
  induction cands generalizing b with
  | nil => exact ⟨b, rfl, Or.inl rfl, le_refl _, by simp⟩
  | cons e t ih =>
      rw [List.foldl_cons]
      by_cases hlt : depthOf b.1 < depthOf e.1
      · simp only [hlt, if_true]
        rcases ih e with ⟨r, hfold, hmem, hble, hall⟩
        refine ⟨r, hfold, ?_, ?_, ?_⟩
        · rcases hmem with h | h
          · exact Or.inr (h ▸ List.mem_cons_self e t)
          · exact Or.inr (List.mem_cons_of_mem e h)
        · exact le_trans (le_of_lt hlt) hble
        · intro e2 he2
          rcases List.mem_cons.mp he2 with h | h
          · rw [h]; exact hble
          · exact hall e2 h
      · simp only [hlt, if_false]
        rcases ih b with ⟨r, hfold, hmem, hble, hall⟩
        refine ⟨r, hfold, ?_, hble, ?_⟩
        · rcases hmem with h | h
          · exact Or.inl h
          · exact Or.inr (List.mem_cons_of_mem e h)
        · intro e2 he2
          rcases List.mem_cons.mp he2 with h | h
          · rw [h]
            exact le_trans (le_of_not_lt hlt) hble
          · exact hall e2 h

theorem pickDepth_spec (cands : List (Obj × Payload)) (hne : cands ≠ []) :
    ∃ r, pickDepth cands = some r ∧ r ∈ cands ∧
      ∀ e ∈ cands, depthOf e.1 ≤ depthOf r.1 := by
  match cands with
  | [] => exact absurd rfl hne
  | c :: t =>
      unfold pickDepth
      rw [List.foldl_cons]
      rcases pickDepth_go t c with ⟨r, hfold, hmem, hble, hall⟩
      refine ⟨r, hfold, ?_, ?_⟩
      · rcases hmem with h | h
        · exact h ▸ List.mem_cons_self c t
        · exact List.mem_cons_of_mem c h
      · intro e he
        rcases List.mem_cons.mp he with h | h
        · rw [h]; exact hble
        · exact hall e h

theorem pequal_symm (p q : Obj) (hndp : keysNodup p) (hndq : keysNodup q)
    (h : pequal p q = true) : pequal q p = true :=
  getsEq_pequal q p hndq hndp (fun k => (pequal_getsEq p q h k).symm)

theorem depth_eq_of_pequal (e p : Obj) (hmfe : metaFree e) (hnde : keysNodup e)
    (hmfp : metaFree p) (hndp : keysNodup p) (h : pequal e p = true) :
    depthOf e = depthOf p := by
  apply le_antisymm
  · exact depth_le_of_matches e p hmfe hnde hmfp (pequal_matches e p h)
  · exact depth_le_of_matches p e hmfp hndp hmfe
      (pequal_matches p e (pequal_symm e p hnde hndp h))

/-- C4, counterexample: with `forbidSameRouteNames` enabled and `insertion`
match order, the duplicate probe `pm.lookup(pattern, patterns)` returns the
earliest-inserted match — here the shallower `r:x` registered first — which
is not `isEqual` to the new pattern `r:x, k:1`, so the exactly-equal pattern
already present is admitted a second time and the index ends with two
exactly-equal entries, violating the claim for the `insertion` order. -/
theorem C4_counterexample :
    pequal [("r", JSValue.str "x"), ("k", JSValue.str "1")]
        [("r", JSValue.str "x"), ("k", JSValue.str "1")] = true ∧
      bishopAdd ⟨true, MatchOrder.insertion⟩
          [([("r", JSValue.str "x")], Payload.loc ⟨1, Except.ok none⟩),
            ([("r", JSValue.str "x"), ("k", JSValue.str "1")],
              Payload.loc ⟨2, Except.ok none⟩)]
          []
          [("r", JSValue.str "x"), ("k", JSValue.str "1")]
          (HandlerArg.fn ⟨3, Except.ok none⟩) =
        Except.ok
          ([([("r", JSValue.str "x")], Payload.loc ⟨1, Except.ok none⟩),
            ([("r", JSValue.str "x"), ("k", JSValue.str "1")],
              Payload.loc ⟨2, Except.ok none⟩),
            ([("r", JSValue.str "x"), ("k", JSValue.str "1")],
              Payload.loc ⟨3, Except.ok none⟩)],
            [([("r", JSValue.str "x"), ("k", JSValue.str "1")],
              Payload.loc ⟨3, Except.ok none⟩)]) ∧
      countEquiv
          [([("r", JSValue.str "x")], Payload.loc ⟨1, Except.ok none⟩),
            ([("r", JSValue.str "x"), ("k", JSValue.str "1")],
              Payload.loc ⟨2, Except.ok none⟩),
            ([("r", JSValue.str "x"), ("k", JSValue.str "1")],
              Payload.loc ⟨3, Except.ok none⟩)]
          [("r", JSValue.str "x"), ("k", JSValue.str "1")] = 2 := by
  refine ⟨by decide, by decide, by decide⟩

/-- C4, amended: under `depth` match order, with `forbidSameRouteNames`
enabled and meta-free patterns with distinct keys (the shape `add` receives
for routes), adding a pattern exactly equal to a registered one fails with
the duplicate-pattern error and — the index being returned unchanged on
error — at most one entry per exactly-equal pattern is preserved across any
`add`.  Under `insertion` order the probe may return an earlier shallower
match and the duplicate is admitted (see the counterexample). -/
theorem C4_duplicate_pattern_depth (pm pmLocal : Index) (pat : Obj)
    (handler : HandlerArg)
    (hwf : ∀ e ∈ pm, metaFree e.1 ∧ keysNodup e.1)
    (hmfp : metaFree pat) (hndp : keysNodup pat) :
    ((∃ e ∈ pm, pequal e.1 pat = true) →
      bishopAdd ⟨true, MatchOrder.depth⟩ pm pmLocal pat handler =
        .error .duplicatePattern) ∧
    (atMostOne pm →
      atMostOne (match bishopAdd ⟨true, MatchOrder.depth⟩ pm pmLocal pat handler with
        | .ok pr => pr.1
        | .error _ => pm)) := by
  have part1 : (∃ e ∈ pm, pequal e.1 pat = true) →
      bishopAdd ⟨true, MatchOrder.depth⟩ pm pmLocal pat handler =
        .error .duplicatePattern := by
    rintro ⟨e0, he0, heq⟩
    have he0c : e0 ∈ pm.filter (fun e => matchesQ e.1 pat) :=
      List.mem_filter.mpr ⟨he0, pequal_matches e0.1 pat heq⟩
    have hne : pm.filter (fun e => matchesQ e.1 pat) ≠ [] :=
      List.ne_nil_of_mem he0c
    rcases pickDepth_spec _ hne with ⟨r, hpick, hrmem, hmax⟩
    have hrpm : r ∈ pm := (List.mem_filter.mp hrmem).1
    have hrmatch : matchesQ r.1 pat = true := (List.mem_filter.mp hrmem).2
    have h1 : depthOf r.1 ≤ depthOf pat :=
      depth_le_of_matches _ _ (hwf r hrpm).1 (hwf r hrpm).2 hmfp hrmatch
    have he0d : depthOf e0.1 = depthOf pat :=
      depth_eq_of_pequal _ _ (hwf e0 he0).1 (hwf e0 he0).2 hmfp hndp heq
    have h2 : depthOf pat ≤ depthOf r.1 := he0d ▸ hmax e0 he0c
    have hreq : pequal r.1 pat = true :=
      pequal_of_depth_eq _ _ (hwf r hrpm).1 (hwf r hrpm).2 hmfp hndp hrmatch
        (le_antisymm h1 h2)
    unfold bishopAdd
    rw [show lookupIdx (⟨true, MatchOrder.depth⟩ : AddCfg).matchOrder pm pat =
        pickDepth (pm.filter (fun e => matchesQ e.1 pat)) from rfl]
    rw [hpick]
    simp [hreq]
  refine ⟨part1, ?_⟩
  intro hamo
  unfold atMostOne
  intro q
  cases hadd : bishopAdd ⟨true, MatchOrder.depth⟩ pm pmLocal pat handler with
  | error e => exact hamo q
  | ok pr =>
      have hnodupeq : ¬ ∃ e ∈ pm, pequal e.1 pat = true := by
        intro hex
        rw [part1 hex] at hadd
        exact Except.noConfusion hadd
      have hpr : pr.1 = pm ++ [(pat, mkPayload handler)] := by
        unfold bishopAdd at hadd
        cases hlk : lookupIdx (⟨true, MatchOrder.depth⟩ : AddCfg).matchOrder pm pat with
        | none =>
            rw [hlk] at hadd
            simp only [if_true, Bool.false_eq_true, if_false] at hadd
            injection hadd with h
            rw [← h]
        | some found =>
            rw [hlk] at hadd
            by_cases hq2 : pequal found.1 pat = true
            · simp only [if_true, hq2] at hadd
              exact Except.noConfusion hadd
            · simp only [if_true, hq2, Bool.false_eq_true, if_false] at hadd
              injection hadd with h
              rw [← h]
      show countEquiv pr.1 q ≤ 1
      rw [hpr]
      rw [show countEquiv (pm ++ [(pat, mkPayload handler)]) q =
          countEquiv pm q + countEquiv [(pat, mkPayload handler)] q from by
        unfold countEquiv
        rw [List.filter_append, List.length_append]]
      by_cases hq : pequal pat q = true
      · have hzero : countEquiv pm q = 0 := by
          unfold countEquiv
          rw [List.length_eq_zero, List.filter_eq_nil_iff]
          intro e he hpe
          apply hnodupeq
          refine ⟨e, he, ?_⟩
          apply getsEq_pequal e.1 pat (hwf e he).2 hndp
          intro k
          rw [pequal_getsEq e.1 q hpe k, ← pequal_getsEq pat q hq k]
        have hone : countEquiv [(pat, mkPayload handler)] q ≤ 1 := by
          unfold countEquiv
          simp [hq]
        omega
      · have hz2 : countEquiv [(pat, mkPayload handler)] q = 0 := by
          unfold countEquiv
          simp [hq]
        rw [hz2]
        simpa using hamo q

/-- C4, witness: under `depth` order a concrete re-registration of the
already-present pattern `r:x` fails with the duplicate-pattern error. -/
theorem C4_duplicate_pattern_depth_witness :
    bishopAdd ⟨true, MatchOrder.depth⟩
        [([("r", JSValue.str "x")], Payload.loc ⟨1, Except.ok none⟩)]
        [([("r", JSValue.str "x")], Payload.loc ⟨1, Except.ok none⟩)]
        [("r", JSValue.str "x")]
        (HandlerArg.fn ⟨2, Except.ok none⟩) =
      Except.error AddErr.duplicatePattern :=
  (C4_duplicate_pattern_depth
      [([("r", JSValue.str "x")], Payload.loc ⟨1, Except.ok none⟩)]
      [([("r", JSValue.str "x")], Payload.loc ⟨1, Except.ok none⟩)]
      [("r", JSValue.str "x")]
      (HandlerArg.fn ⟨2, Except.ok none⟩)
      (by decide) (by decide) (by decide)).1
    ⟨([("r", JSValue.str "x")], Payload.loc ⟨1, Except.ok none⟩),
      by decide, by decide⟩

theorem heap_get_alloc_of_some (h : Heap) (o ob : Obj) (a : Addr)
    (hget : h.get a = some ob) : (h.alloc o).2.get a = some ob := by
  unfold Heap.get at hget
  unfold Heap.alloc Heap.get
  rw [show (⟨h.objs ++ [(h.next, o)], h.next + 1⟩ : Heap).objs
      = h.objs ++ [(h.next, o)] from rfl]
  rw [find?_append]
  cases hf : h.objs.find? (fun e => e.1 == a) with
  | none => rw [hf] at hget; exact absurd hget (by simp)
  | some e =>
      rw [hf] at hget
      simp only [Option.or]
      simpa using hget

theorem heap_get_alloc_fresh (h : Heap) (o : Obj) (hwf : h.wf) :
    (h.alloc o).2.get h.next = some o := by
  unfold Heap.alloc Heap.get
  rw [show (⟨h.objs ++ [(h.next, o)], h.next + 1⟩ : Heap).objs
      = h.objs ++ [(h.next, o)] from rfl]
  rw [find?_append]
  rw [show h.objs.find? (fun e => e.1 == h.next) = none from by
    apply List.find?_eq_none.mpr
    intro e he hc
    have : e.1 = h.next := by simpa using hc
    exact absurd (this ▸ hwf e he) (lt_irrefl h.next)]
  simp [List.find?, Option.or]

theorem heap_wf_alloc (h : Heap) (o : Obj) (hwf : h.wf) : (h.alloc o).2.wf := by
  intro e he
  unfold Heap.alloc at he
  rw [show (⟨h.objs ++ [(h.next, o)], h.next + 1⟩ : Heap).objs
      = h.objs ++ [(h.next, o)] from rfl] at he
  rcases List.mem_append.mp he with h1 | h1
  · exact lt_trans (hwf e h1) (Nat.lt_succ_self _)
  · rcases List.mem_cons.mp h1 with h2 | h2
    · rw [h2]
      exact Nat.lt_succ_self _
    · simp at h2

theorem heap_get_setField_other (h : Heap) (a a2 : Addr) (k : String)
    (v : JSValue) (hne : a2 ≠ a) :
    (h.setField a k v).get a2 = h.get a2 := by
  unfold Heap.setField Heap.get
  rw [show (⟨h.objs.map (fun e => if e.1 == a then (e.1, setKey e.2 k v) else e),
      h.next⟩ : Heap).objs
    = h.objs.map (fun e => if e.1 == a then (e.1, setKey e.2 k v) else e) from rfl]
  induction h.objs with
  | nil => rfl
  | cons e t ih =>
      rw [List.map_cons]
      by_cases hea : e.1 = a
      · have hba : (e.1 == a) = true := by simp [hea]
        have hb2 : (e.1 == a2) = false := by
          simp only [beq_eq_false_iff_ne, ne_eq]
          intro hc
          exact hne (hc ▸ hea)
        simp only [hba, if_true]
        rw [List.find?_cons_of_neg _ (by simp [hb2]),
          List.find?_cons_of_neg _ (by simp [hb2])]
        exact ih
      · have hba : (e.1 == a) = false := by simp [hea]
        simp only [hba, Bool.false_eq_true, if_false]
        by_cases he2 : e.1 = a2
        · rw [List.find?_cons_of_pos _ (by simp [he2]),
            List.find?_cons_of_pos _ (by simp [he2])]
        · rw [List.find?_cons_of_neg _ (by simp [he2]),
            List.find?_cons_of_neg _ (by simp [he2])]
          exact ih

/-- C10: neither `add` nor the pattern composition of `act` mutates the
object passed by the caller — `add` stores a clone of it at a fresh address
and `act` merges the clone with the overrides into a freshly created
object — and a later caller-side mutation of the original pattern does not
affect the stored index entry. -/
theorem C10_no_pattern_mutation (h : Heap) (idx : List (Addr × Payload))
    (a : Addr) (pl : Payload) (ob : Obj) (payload : Obj)
    (hwf : h.wf) (hget : h.get a = some ob) :
    (addH h idx a pl).1.get a = some ob ∧
      (addH h idx a pl).2 = idx ++ [(h.next, pl)] ∧
      h.next ≠ a ∧
      (addH h idx a pl).1.get h.next = some ob ∧
      (∀ k v, ((addH h idx a pl).1.setField a k v).get h.next = some ob) ∧
      (actMergeH h a payload).2.get a = some ob := by
  have hlt : a < h.next := by
    have hmem : ∃ e ∈ h.objs, e.1 = a := by
      unfold Heap.get at hget
      cases hf : h.objs.find? (fun e => e.1 == a) with
      | none => rw [hf] at hget; exact absurd hget (by simp)
      | some e =>
          refine ⟨e, List.mem_of_find?_eq_some hf, ?_⟩
          have := find?_some_pred (fun e2 : Addr × Obj => e2.1 == a) h.objs e hf
          simpa using this
    rcases hmem with ⟨e, he, hea⟩
    exact hea ▸ hwf e he
  have hclone : cloneDeepH h a = h.alloc ob := by
    unfold cloneDeepH
    rw [hget]
    rfl
  refine ⟨?_, ?_, ?_, ?_, ?_, ?_⟩
  · show (cloneDeepH h a).2.get a = some ob
    rw [hclone]
    exact heap_get_alloc_of_some h ob ob a hget
  · show idx ++ [((cloneDeepH h a).1, pl)] = idx ++ [(h.next, pl)]
    rw [hclone]
    rfl
  · exact fun he => absurd (he ▸ hlt) (lt_irrefl _)
  · show (cloneDeepH h a).2.get h.next = some ob
    rw [hclone]
    exact heap_get_alloc_fresh h ob hwf
  · intro k v
    show ((cloneDeepH h a).2.setField a k v).get h.next = some ob
    rw [hclone]
    rw [heap_get_setField_other _ a h.next k v (fun he => absurd (he ▸ hlt) (lt_irrefl _))]
    exact heap_get_alloc_fresh h ob hwf
  · unfold actMergeH
    rw [hclone]
    apply heap_get_alloc_of_some
    exact heap_get_alloc_of_some h ob ob a hget

/-- C10, witness: in a one-object heap holding the pattern `r:x` at address
zero, `add` leaves the object of the caller intact, stores the clone at the
fresh address one, and a later caller-side write to the original leaves the
stored clone unchanged. -/
theorem C10_no_pattern_mutation_witness :
    (addH ⟨[(0, [("r", JSValue.str "x")])], 1⟩ [] 0
        (Payload.loc ⟨1, Except.ok none⟩)).1.get 0 = some [("r", JSValue.str "x")] ∧
      (∀ k v, ((addH ⟨[(0, [("r", JSValue.str "x")])], 1⟩ [] 0
        (Payload.loc ⟨1, Except.ok none⟩)).1.setField 0 k v).get 1 =
          some [("r", JSValue.str "x")]) := by
  have h := C10_no_pattern_mutation ⟨[(0, [("r", JSValue.str "x")])], 1⟩ []
    0 (Payload.loc ⟨1, Except.ok none⟩) [("r", JSValue.str "x")] []
    (by intro e he; simp at he; simp [he]) (by decide)
  exact ⟨h.1, h.2.2.2.2.1⟩
